import Mathlib

/-!
# ImHex disassembler view: the chunked disassembly loop

A shallow embedding of `ViewDisassembler::disassemble`
(`plugins/builtin/source/content/views/view_disassembler.cpp`).

The body of the background task reads the selected region in chunks of 2048
bytes, hands every chunk to capstone (`cs_disasm`), converts the returned
`cs_insn` records into `Disassembly` rows and adjusts the loop variable
`address` when capstone did not consume the whole chunk.

* `u64` values are natural numbers; every operation that can wrap is written
  with an explicit reduction modulo `2 ^ 64`.
* capstone and the data provider are parameters of the model (`Env`).
* the `for` loop is a step function on `LoopState`; `run n` is the state
  after `n` evaluations of the loop head.  The state also records the calls
  made to `task.update`, `provider->read` and `cs_disasm`.
* the literal `2048` (buffer length, loop increment, bound of `std::min`) is
  the parameter `W`; the program is the instance `W = 2048`.
* `disassemble` wraps the loop: it clears `m_disassembly`, creates the task and
  runs the loop only when `cs_open` succeeds.
* `m_mode` is the value the settings box of `drawContent` computes from its
  `static` variables; the values of capstone's enumerators are a parameter.
* `handleHexdumpCommand` (`command_line_interface.cpp`) is reduced to the pair
  of numbers it passes to `generateHexView`.
-/

namespace ViewDisassembler

/-! ## Machine arithmetic -/

/-- Reduction of a natural number to the range of `u64`. -/
def u64 (n : Nat) : Nat := n % 18446744073709551616

/-- Subtraction of two `u64` values, wrapping around as in C++. -/
def u64sub (a b : Nat) : Nat := u64 (a + 18446744073709551616 - u64 b)

/-! ## Data model -/

/-- The fields of capstone's `cs_insn` that the view reads.
`size` is a `uint16_t`, `address` a `uint64_t`, `bytes` an array of `uint8_t`. -/
structure cs_insn where
  address : Nat
  size : Nat
  bytes : List Nat
  mnemonic : String
  op_str : String
deriving DecidableEq

/-- One row of the disassembly table (`struct Disassembly`). -/
structure Disassembly where
  address : Nat
  offset : Nat
  size : Nat
  bytes : String
  mnemonic : String
  operators : String
deriving DecidableEq

/-- Everything the loop reads but does not change: the selected region
(`m_codeRegion`), `m_baseAddress`, the provider's bytes by absolute offset and
the capstone handle seen as a function of the chunk and its virtual address. -/
structure Env where
  startAddress : Nat
  size : Nat
  baseAddress : Nat
  provider : Nat → Nat
  cs_disasm : List Nat → Nat → List cs_insn

/-- The loop variable, the result vector and the calls made so far. -/
structure LoopState where
  address : Nat
  m_disassembly : List Disassembly
  updates : List Nat
  reads : List (Nat × Nat)
  decodes : List (Nat × Nat)
  finished : Bool
deriving DecidableEq

/-! ## Byte rendering -/

/-- Upper-case hexadecimal digit. -/
def hexDigit (n : Nat) : Char :=
  ['0', '1', '2', '3', '4', '5', '6', '7', '8', '9', 'A', 'B', 'C', 'D', 'E', 'F'].getD n '0'

/-- The text `hex::format("{0:02X} ", b)` for a byte `b`. -/
def formatByte (b : Nat) : List Char :=
  [hexDigit (b % 256 / 16), hexDigit (b % 16), ' ']

/-- The loop `for (u16 j = 0; j < instr.size; j++) bytes += format(instr.bytes[j])`
followed by `bytes.pop_back()`, which removes the last blank.  (For an instruction of size
`0` the C++ `pop_back` acts on an empty string; here the text stays empty.) -/
def renderBytes (instr : cs_insn) : String :=
  String.mk (((List.range instr.size).flatMap (fun j => formatByte (instr.bytes.getD j 0))).dropLast)

/-! ## The loop -/

/-- The call `provider->read(offset, buffer.data(), length)`: the first `length` bytes
of the buffer afterwards. -/
def read (provider : Nat → Nat) (offset length : Nat) : List Nat :=
  (List.range length).map (fun i => provider (offset + i))

/-- The row built from one instruction when `usedBytes` bytes of the chunk at
`address` came before it. -/
def toDisassembly (startAddress address usedBytes : Nat) (instr : cs_insn) : Disassembly :=
  { address := instr.address
    offset := u64 (startAddress + address + usedBytes)
    size := instr.size
    bytes := renderBytes instr
    mnemonic := instr.mnemonic
    operators := instr.op_str }

/-- The rows pushed by the conversion loop, `usedBytes` being its running counter. -/
def convert (startAddress address : Nat) : List cs_insn → Nat → List Disassembly
  | [], _ => []
  | instr :: rest, usedBytes =>
      toDisassembly startAddress address usedBytes instr ::
        convert startAddress address rest (u64 (usedBytes + instr.size))

/-- The value of `usedBytes` when the conversion loop ends. -/
def usedBytesFrom : List cs_insn → Nat → Nat
  | [], usedBytes => usedBytes
  | instr :: rest, usedBytes => usedBytesFrom rest (u64 (usedBytes + instr.size))

/-- The value of `usedBytes` after a chunk, starting from `0`. -/
def usedBytes (instructions : List cs_insn) : Nat := usedBytesFrom instructions 0

/-- The value of `bufferSize` in the iteration at `address` (which is below `size`). -/
def bufferSize (W : Nat) (env : Env) (address : Nat) : Nat :=
  min W (env.size - address)

/-- The chunk read in the iteration at `address`. -/
def chunk (W : Nat) (env : Env) (address : Nat) : List Nat :=
  read env.provider (u64 (env.startAddress + address)) (bufferSize W env address)

/-- The instructions capstone returns in the iteration at `address`. -/
def instructionsAt (W : Nat) (env : Env) (address : Nat) : List cs_insn :=
  env.cs_disasm (chunk W env address) (u64 (env.baseAddress + address))

/-- The value of `address` when the body of the iteration at `address` ends without
`break`, before the loop increment: the statement
`if (instructionCount < bufferSize) address -= (bufferSize - usedBytes);`. -/
def adjusted (W : Nat) (env : Env) (address : Nat) : Nat :=
  if (instructionsAt W env address).length < bufferSize W env address then
    u64sub address (u64sub (bufferSize W env address) (usedBytes (instructionsAt W env address)))
  else address

/-- The value of `address` at the next evaluation of the loop head. -/
def nextAddress (W : Nat) (env : Env) (address : Nat) : Nat :=
  u64 (adjusted W env address + W)

/-- State before the first evaluation of the loop head (`m_disassembly.clear()`,
`address = 0`). -/
def initial : LoopState :=
  { address := 0, m_disassembly := [], updates := [], reads := [], decodes := [],
    finished := false }

/-- One evaluation of the loop head `address < size` followed, when it holds, by the
loop body and the increment `address += W`. -/
def step (W : Nat) (env : Env) (s : LoopState) : LoopState :=
  if s.finished then s
  else if s.address < env.size then
    let instructions := instructionsAt W env s.address
    let called : LoopState :=
      { s with
        updates := s.updates ++ [s.address]
        reads := s.reads ++ [(u64 (env.startAddress + s.address), bufferSize W env s.address)]
        decodes := s.decodes ++ [(u64 (env.baseAddress + s.address), instructions.length)] }
    if instructions.length = 0 then { called with finished := true }
    else
      { called with
        m_disassembly :=
          s.m_disassembly ++ convert env.startAddress s.address instructions 0
        address := nextAddress W env s.address }
  else { s with finished := true }

/-- State after `n` evaluations of the loop head. -/
def run (W : Nat) (env : Env) : Nat → LoopState
  | 0 => initial
  | n + 1 => step W env (run W env n)

/-! ## Decoders and regions used as examples -/

/-- Decoder of the scenario: one instruction of three bytes when the chunk holds at
least three bytes, nothing otherwise. -/
def threeByteDecoder (buffer : List Nat) (address : Nat) : List cs_insn :=
  if 3 ≤ buffer.length then [⟨address, 3, buffer.take 3, "op", ""⟩] else []

/-- Region `{0, 10}` of an all-zero source, base address `0`. -/
def scenarioEnv : Env :=
  { startAddress := 0, size := 10, baseAddress := 0, provider := fun _ => 0,
    cs_disasm := threeByteDecoder }

/-- Decoder that never decodes anything. -/
def stalledDecoder (_ : List Nat) (_ : Nat) : List cs_insn := []

/-- Region `{16, 5000}` of a source whose bytes repeat `0 .. 255`, base address
`0x400000`, with the decoder that never decodes anything. -/
def stalledEnv : Env :=
  { startAddress := 16, size := 5000, baseAddress := 4194304, provider := fun i => i % 256,
    cs_disasm := stalledDecoder }

/-- Decoder that takes a chunk starting with `0xCC` for one block of padding as long as
the chunk and decodes nothing otherwise. -/
def paddingDecoder (buffer : List Nat) (address : Nat) : List cs_insn :=
  if buffer.head? = some 204 then [⟨address, buffer.length, [204], "int3", ""⟩] else []

/-- Region `{0, 5000}` of a source that holds 2048 bytes `0xCC` followed by zeros. -/
def paddedEnv : Env :=
  { startAddress := 0, size := 5000, baseAddress := 0,
    provider := fun i => if i < 2048 then 204 else 0, cs_disasm := paddingDecoder }

/-- Empty region `{64, 0}` with the decoder of the scenario. -/
def emptyEnv : Env :=
  { startAddress := 64, size := 0, baseAddress := 4096, provider := fun _ => 0,
    cs_disasm := threeByteDecoder }

/-! ## Predicates used to state the claims -/

/-- Number of bytes covered by the instructions of one chunk, as a plain sum. -/
def totalSize (instructions : List cs_insn) : Nat :=
  (instructions.map cs_insn.size).sum

/-- The decoder returns instructions of at least one byte whose sizes sum to at most the
length of the chunk it was given. -/
def DecodesWithin (decoder : List Nat → Nat → List cs_insn) : Prop :=
  ∀ buffer address,
    (∀ i ∈ decoder buffer address, 1 ≤ i.size) ∧
    totalSize (decoder buffer address) ≤ buffer.length

/-- The decoder returns, on every non-empty chunk, instructions of at least one byte whose
sizes sum to exactly the length of the chunk. -/
def DecodesAll (decoder : List Nat → Nat → List cs_insn) : Prop :=
  ∀ buffer address, buffer ≠ [] →
    (∀ i ∈ decoder buffer address, 1 ≤ i.size) ∧
    totalSize (decoder buffer address) = buffer.length

/-- The instructions carry the addresses `v`, `v + size₀`, `v + size₀ + size₁`, ...
in `u64` arithmetic. -/
def Stamped : Nat → List cs_insn → Prop
  | _, [] => True
  | v, i :: rest => i.address = u64 v ∧ Stamped (v + i.size) rest

/-- The rows start at offset `p`, each row starts where the previous one ends, every row has
at least one byte, and the last row ends at `q`. -/
def Tiles : Nat → List Disassembly → Nat → Prop
  | p, [], q => p = q
  | p, d :: rest, q => d.offset = p ∧ 1 ≤ d.size ∧ Tiles (p + d.size) rest q

/-- The rows lie between `p` and `q`, in order and without overlap (gaps are allowed), and
every row has at least one byte. -/
def Ordered : Nat → List Disassembly → Nat → Prop
  | p, [], q => p ≤ q
  | p, d :: rest, q => p ≤ d.offset ∧ 1 ≤ d.size ∧ Ordered (d.offset + d.size) rest q

/-- Invariant of the loop under `DecodesWithin`: the rows are ordered inside the region and
end at or before the position of the loop variable. -/
def OrderedInv (env : Env) (s : LoopState) : Prop :=
  ∃ q, Ordered env.startAddress s.m_disassembly q ∧
    q ≤ env.startAddress + env.size ∧
    (s.address < env.size → q ≤ env.startAddress + s.address)

/-- Invariant of the loop under `DecodesAll`: the rows tile the region from its start up to
the position of the loop variable. -/
def TilesInv (env : Env) (s : LoopState) : Prop :=
  ∃ q, Tiles env.startAddress s.m_disassembly q ∧
    (s.address < env.size → q = env.startAddress + s.address)

/-- Invariant of the loop as long as `address` does not wrap around: the values passed to
`task.update` are non-decreasing, below the region size and at most the loop variable. -/
def UpdatesInv (env : Env) (s : LoopState) : Prop :=
  s.updates.Pairwise (fun a b => a ≤ b) ∧ ∀ v ∈ s.updates, v ≤ s.address ∧ v < env.size

/-- Invariant of the loop under a stamping decoder: every row carries the address
`baseAddress + (offset - startAddress)` modulo `2 ^ 64`. -/
def StampedInv (env : Env) (s : LoopState) : Prop :=
  ∀ d ∈ s.m_disassembly, d.address = u64 (env.baseAddress + u64sub d.offset env.startAddress)

/-- Decoder for which every byte is an instruction of its own (as capstone does for
undecodable bytes when `CS_OPT_SKIPDATA` is on and the skip length is one byte). -/
def byteDecoder (buffer : List Nat) (address : Nat) : List cs_insn :=
  (List.range buffer.length).map
    (fun k => ⟨u64 (address + k), 1, [buffer.getD k 0], ".byte", ""⟩)

/-- Region `{4096, 5000}` of a source whose bytes repeat `0 .. 255`, base address
`0x400000`, decoded byte by byte. -/
def bytewiseEnv : Env :=
  { startAddress := 4096, size := 5000, baseAddress := 4194304, provider := fun i => i % 256,
    cs_disasm := byteDecoder }

/-- Region `{4096, 8}` of a source whose bytes repeat `0 .. 255`, base address `0x400000`,
decoded byte by byte. -/
def tinyEnv : Env :=
  { startAddress := 4096, size := 8, baseAddress := 4194304, provider := fun i => i % 256,
    cs_disasm := byteDecoder }

/-- Region `{4096, 5000}` of an all-zero source, base address `0x400000`, with the decoder
of the scenario. -/
def partialEnv : Env :=
  { startAddress := 4096, size := 5000, baseAddress := 4194304, provider := fun _ => 0,
    cs_disasm := threeByteDecoder }

/-- Decoder of a fixed-width instruction set with four bytes per instruction (as for ARM):
it decodes as many whole instructions as the chunk holds and leaves a shorter tail. -/
def fixedWidthDecoder (buffer : List Nat) (address : Nat) : List cs_insn :=
  (List.range (buffer.length / 4)).map
    (fun k => ⟨u64 (address + 4 * k), 4, (buffer.drop (4 * k)).take 4, "insn", ""⟩)

/-- Region `{0, 2047}` of a source whose bytes repeat `0 .. 255`, base address `0`, with the
fixed-width decoder. -/
def shortEnv : Env :=
  { startAddress := 0, size := 2047, baseAddress := 0, provider := fun i => i % 256,
    cs_disasm := fixedWidthDecoder }

/-! ## Instruction streams -/

/-- The longest run of consecutive instructions that fits into `length` bytes, when
`insnAt p` is the instruction that starts at position `p` of the region. -/
def fitting (insnAt : Nat → cs_insn) : Nat → Nat → Nat → List cs_insn
  | 0, _, _ => []
  | fuel + 1, position, length =>
      if (insnAt position).size ≤ length then
        insnAt position ::
          fitting insnAt fuel (position + (insnAt position).size)
            (length - (insnAt position).size)
      else []

/-- The instructions of the stream that a chunk of `length` bytes at `position` holds
completely (every instruction has at least one byte, so `length` steps are enough). -/
def stream (insnAt : Nat → cs_insn) (position length : Nat) : List cs_insn :=
  fitting insnAt length position length

/-- The decoder of `env` is a stream decoder: on every chunk inside the region it returns the
instructions of the stream `insnAt` that the chunk holds completely, front to back. -/
def DecodesStream (env : Env) (insnAt : Nat → cs_insn) : Prop :=
  ∀ a length, a + length ≤ env.size →
    env.cs_disasm (read env.provider (u64 (env.startAddress + a)) length)
      (u64 (env.baseAddress + a)) = stream insnAt a length

/-- Length of an instruction of the toy instruction set, from its first byte: opcode `3`
has two operand bytes, every other opcode has none. -/
def insnLength (opcode : Nat) : Nat := if opcode = 3 then 3 else 1

/-- Decoder of the toy instruction set: whole instructions front to back, stopping at the
first instruction that the chunk does not hold completely. -/
def plainDecoderFrom : Nat → List Nat → Nat → List cs_insn
  | 0, _, _ => []
  | _ + 1, [], _ => []
  | fuel + 1, b :: rest, address =>
      if insnLength b ≤ (b :: rest).length then
        ⟨address, insnLength b, (b :: rest).take (insnLength b), "op", ""⟩ ::
          plainDecoderFrom fuel ((b :: rest).drop (insnLength b)) (u64 (address + insnLength b))
      else []

/-- Decoder of the toy instruction set, as a function of the chunk and its address. -/
def plainDecoder (buffer : List Nat) (address : Nat) : List cs_insn :=
  plainDecoderFrom buffer.length buffer address

/-- Decoder of the toy instruction set in the manner of `CS_OPT_SKIPDATA`: a byte that does
not start a whole instruction inside the chunk is emitted as one byte of data. -/
def skipDataDecoderFrom : Nat → List Nat → Nat → List cs_insn
  | 0, _, _ => []
  | _ + 1, [], _ => []
  | fuel + 1, b :: rest, address =>
      if insnLength b ≤ (b :: rest).length then
        ⟨address, insnLength b, (b :: rest).take (insnLength b), "op", ""⟩ ::
          skipDataDecoderFrom fuel ((b :: rest).drop (insnLength b))
            (u64 (address + insnLength b))
      else
        ⟨address, 1, [b], ".byte", ""⟩ :: skipDataDecoderFrom fuel rest (u64 (address + 1))

/-- Skip-data decoder of the toy instruction set, as a function of the chunk and its
address. -/
def skipDataDecoder (buffer : List Nat) (address : Nat) : List cs_insn :=
  skipDataDecoderFrom buffer.length buffer address

/-- Region `{0, 4}` holding the bytes `1 3 1 1`, with the skip-data decoder. -/
def skipDataEnv : Env :=
  { startAddress := 0, size := 4, baseAddress := 0, provider := fun i => [1, 3, 1, 1].getD i 0,
    cs_disasm := skipDataDecoder }

/-- Region `{0, 3}` holding the bytes `1 3 1` (its last instruction is cut off by the end of
the region), with the plain decoder. -/
def truncatedEnv : Env :=
  { startAddress := 0, size := 3, baseAddress := 0, provider := fun i => [1, 3, 1].getD i 0,
    cs_disasm := plainDecoder }

/-- The triple `(address, offset, size)` of a row. -/
def triple (d : Disassembly) : Nat × Nat × Nat := (d.address, d.offset, d.size)

/-- Region `{16, 10}` holding the bytes `1 3 7 7 1 1 3 7 7 1` (it ends on an instruction
boundary), base address `0x1000`, with the plain decoder. -/
def streamEnv : Env :=
  { startAddress := 16, size := 10, baseAddress := 4096,
    provider := fun i => [1, 3, 7, 7, 1, 1, 3, 7, 7, 1].getD (i - 16) 0,
    cs_disasm := plainDecoder }

/-- The instruction of the toy instruction set that starts at position `p` of
`streamEnv`. -/
def streamInsnAt (p : Nat) : cs_insn :=
  ⟨u64 (4096 + p), insnLength (streamEnv.provider (16 + p)),
    read streamEnv.provider (16 + p) (insnLength (streamEnv.provider (16 + p))), "op", ""⟩

/-! ## The resync rule as the specification words it -/

/-- The value of `address` after the rewind when the guard compares bytes, not
instructions: "if `usedBytes < bufferSize`, rewind by `bufferSize - usedBytes`". -/
def ruleAdjusted (W : Nat) (env : Env) (address : Nat) : Nat :=
  if usedBytes (instructionsAt W env address) < bufferSize W env address then
    u64sub address (u64sub (bufferSize W env address) (usedBytes (instructionsAt W env address)))
  else address

/-- The next value of `address` under the rule of the specification. -/
def ruleNextAddress (W : Nat) (env : Env) (address : Nat) : Nat :=
  u64 (ruleAdjusted W env address + W)

/-! ## Architecture and mode selection (`drawContent`) -/

/-- The architectures that the `switch` in `drawContent` distinguishes
(`Disassembler::Architecture`, built against capstone 5). -/
inductive Architecture where
  | ARM | MIPS | X86 | PPC | SPARC | RISCV | M68K | M680X | MOS65XX | BPF | SH | TRICORE
  | WASM | EVM | TMS320C64X | ARM64 | SYSZ | XCORE
deriving DecidableEq

/-- The values of capstone's `cs_mode` enumerators that `drawContent` uses.  The header
`capstone.h` is not part of the repository, so the values are a parameter of the model. -/
structure ModeConstants where
  CS_MODE_ARM : Nat
  CS_MODE_THUMB : Nat
  CS_MODE_MCLASS : Nat
  CS_MODE_V8 : Nat
  CS_MODE_MIPS32 : Nat
  CS_MODE_MIPS64 : Nat
  CS_MODE_MIPS32R6 : Nat
  CS_MODE_MIPS2 : Nat
  CS_MODE_MIPS3 : Nat
  CS_MODE_MICRO : Nat
  CS_MODE_16 : Nat
  CS_MODE_32 : Nat
  CS_MODE_64 : Nat
  CS_MODE_QPX : Nat
  CS_MODE_SPE : Nat
  CS_MODE_BOOKE : Nat
  CS_MODE_V9 : Nat
  CS_MODE_RISCV32 : Nat
  CS_MODE_RISCV64 : Nat
  CS_MODE_RISCVC : Nat
  CS_MODE_M68K_000 : Nat
  CS_MODE_M68K_010 : Nat
  CS_MODE_M68K_020 : Nat
  CS_MODE_M68K_030 : Nat
  CS_MODE_M68K_040 : Nat
  CS_MODE_M68K_060 : Nat
  CS_MODE_M680X_6301 : Nat
  CS_MODE_M680X_6309 : Nat
  CS_MODE_M680X_6800 : Nat
  CS_MODE_M680X_6801 : Nat
  CS_MODE_M680X_6805 : Nat
  CS_MODE_M680X_6808 : Nat
  CS_MODE_M680X_6809 : Nat
  CS_MODE_M680X_6811 : Nat
  CS_MODE_M680X_CPU12 : Nat
  CS_MODE_M680X_HCS08 : Nat
  CS_MODE_MOS65XX_6502 : Nat
  CS_MODE_MOS65XX_65C02 : Nat
  CS_MODE_MOS65XX_W65C02 : Nat
  CS_MODE_MOS65XX_65816 : Nat
  CS_MODE_MOS65XX_65816_LONG_M : Nat
  CS_MODE_MOS65XX_65816_LONG_X : Nat
  CS_MODE_MOS65XX_65816_LONG_MX : Nat
  CS_MODE_BPF_CLASSIC : Nat
  CS_MODE_BPF_EXTENDED : Nat
  CS_MODE_SH2 : Nat
  CS_MODE_SH2A : Nat
  CS_MODE_SH3 : Nat
  CS_MODE_SH4 : Nat
  CS_MODE_SH4A : Nat
  CS_MODE_SHFPU : Nat
  CS_MODE_SHDSP : Nat
  CS_MODE_TRICORE_110 : Nat
  CS_MODE_TRICORE_120 : Nat
  CS_MODE_TRICORE_130 : Nat
  CS_MODE_TRICORE_131 : Nat
  CS_MODE_TRICORE_160 : Nat
  CS_MODE_TRICORE_161 : Nat
  CS_MODE_TRICORE_162 : Nat
  CS_MODE_LITTLE_ENDIAN : Nat
  CS_MODE_BIG_ENDIAN : Nat

/-- The values the enumerators have in `capstone.h` of capstone 5. -/
def capstone5 : ModeConstants :=
  { CS_MODE_ARM := 0, CS_MODE_THUMB := 16, CS_MODE_MCLASS := 32, CS_MODE_V8 := 64,
    CS_MODE_MIPS32 := 4, CS_MODE_MIPS64 := 8, CS_MODE_MIPS32R6 := 64, CS_MODE_MIPS2 := 128,
    CS_MODE_MIPS3 := 32, CS_MODE_MICRO := 16,
    CS_MODE_16 := 2, CS_MODE_32 := 4, CS_MODE_64 := 8,
    CS_MODE_QPX := 16, CS_MODE_SPE := 32, CS_MODE_BOOKE := 64,
    CS_MODE_V9 := 16,
    CS_MODE_RISCV32 := 1, CS_MODE_RISCV64 := 2, CS_MODE_RISCVC := 4,
    CS_MODE_M68K_000 := 2, CS_MODE_M68K_010 := 4, CS_MODE_M68K_020 := 8,
    CS_MODE_M68K_030 := 16, CS_MODE_M68K_040 := 32, CS_MODE_M68K_060 := 64,
    CS_MODE_M680X_6301 := 2, CS_MODE_M680X_6309 := 4, CS_MODE_M680X_6800 := 8,
    CS_MODE_M680X_6801 := 16, CS_MODE_M680X_6805 := 32, CS_MODE_M680X_6808 := 64,
    CS_MODE_M680X_6809 := 128, CS_MODE_M680X_6811 := 256, CS_MODE_M680X_CPU12 := 512,
    CS_MODE_M680X_HCS08 := 1024,
    CS_MODE_MOS65XX_6502 := 2, CS_MODE_MOS65XX_65C02 := 4, CS_MODE_MOS65XX_W65C02 := 8,
    CS_MODE_MOS65XX_65816 := 16, CS_MODE_MOS65XX_65816_LONG_M := 32,
    CS_MODE_MOS65XX_65816_LONG_X := 64, CS_MODE_MOS65XX_65816_LONG_MX := 96,
    CS_MODE_BPF_CLASSIC := 0, CS_MODE_BPF_EXTENDED := 1,
    CS_MODE_SH2 := 2, CS_MODE_SH2A := 4, CS_MODE_SH3 := 8, CS_MODE_SH4 := 16,
    CS_MODE_SH4A := 32, CS_MODE_SHFPU := 64, CS_MODE_SHDSP := 128,
    CS_MODE_TRICORE_110 := 2, CS_MODE_TRICORE_120 := 4, CS_MODE_TRICORE_130 := 8,
    CS_MODE_TRICORE_131 := 16, CS_MODE_TRICORE_160 := 32, CS_MODE_TRICORE_161 := 64,
    CS_MODE_TRICORE_162 := 128,
    CS_MODE_LITTLE_ENDIAN := 0, CS_MODE_BIG_ENDIAN := 2147483648 }

/-- The choice of the ARM radio buttons `arm` / `thumb` (`static int mode`). -/
inductive ArmMode where
  | arm | thumb
deriving DecidableEq

/-- The choice of the ARM radio buttons `default` / `cortex_m` / `armv8`
(`static int extraMode`). -/
inductive ArmExtra where
  | default | cortexM | armv8
deriving DecidableEq

/-- The choice of the MIPS radio buttons. -/
inductive MipsMode where
  | mips32 | mips64 | mips32R6 | mips2 | mips3
deriving DecidableEq

/-- The choice of the X86 radio buttons. -/
inductive X86Mode where
  | bits16 | bits32 | bits64
deriving DecidableEq

/-- The choice of the `32bit` / `64bit` radio buttons (PPC and RISCV). -/
inductive WordMode where
  | bits32 | bits64
deriving DecidableEq

/-- The choice of the BPF radio buttons. -/
inductive BpfMode where
  | classic | extended
deriving DecidableEq

/-- The `static` variables of the settings box of `drawContent`: the endianness radio
buttons, and per architecture the radio choice, the index selected in the combo box and the
check boxes. -/
structure Settings where
  littleEndian : Bool
  armMode : ArmMode
  armExtraMode : ArmExtra
  mipsMode : MipsMode
  microMode : Bool
  x86Mode : X86Mode
  ppcMode : WordMode
  qpx : Bool
  spe : Bool
  booke : Bool
  v9Mode : Bool
  riscvMode : WordMode
  compressed : Bool
  m68kSelectedMode : Fin 6
  m680xSelectedMode : Fin 10
  mos65xxSelectedMode : Fin 7
  bpfMode : BpfMode
  shSelectionMode : Fin 5
  fpu : Bool
  dsp : Bool
  tricoreSelectionMode : Fin 7

/-- The value the ARM radio choice stores in `mode`. -/
def ArmMode.value (c : ModeConstants) : ArmMode → Nat
  | .arm => c.CS_MODE_ARM
  | .thumb => c.CS_MODE_THUMB

/-- The value the second ARM radio choice stores in `extraMode`. -/
def ArmExtra.value (c : ModeConstants) : ArmExtra → Nat
  | .default => 0
  | .cortexM => c.CS_MODE_MCLASS
  | .armv8 => c.CS_MODE_V8

/-- The value the MIPS radio choice stores in `mode`. -/
def MipsMode.value (c : ModeConstants) : MipsMode → Nat
  | .mips32 => c.CS_MODE_MIPS32
  | .mips64 => c.CS_MODE_MIPS64
  | .mips32R6 => c.CS_MODE_MIPS32R6
  | .mips2 => c.CS_MODE_MIPS2
  | .mips3 => c.CS_MODE_MIPS3

/-- The value the X86 radio choice stores in `mode`. -/
def X86Mode.value (c : ModeConstants) : X86Mode → Nat
  | .bits16 => c.CS_MODE_16
  | .bits32 => c.CS_MODE_32
  | .bits64 => c.CS_MODE_64

/-- The value the PPC radio choice stores in `mode`. -/
def WordMode.ppcValue (c : ModeConstants) : WordMode → Nat
  | .bits32 => c.CS_MODE_32
  | .bits64 => c.CS_MODE_64

/-- The value the RISCV radio choice stores in `mode`. -/
def WordMode.riscvValue (c : ModeConstants) : WordMode → Nat
  | .bits32 => c.CS_MODE_RISCV32
  | .bits64 => c.CS_MODE_RISCV64

/-- The value the BPF radio choice stores in `mode`. -/
def BpfMode.value (c : ModeConstants) : BpfMode → Nat
  | .classic => c.CS_MODE_BPF_CLASSIC
  | .extended => c.CS_MODE_BPF_EXTENDED

/-- The second components of the array `modes` of the M68K case. -/
def m68kModes (c : ModeConstants) : List Nat :=
  [c.CS_MODE_M68K_000, c.CS_MODE_M68K_010, c.CS_MODE_M68K_020, c.CS_MODE_M68K_030,
    c.CS_MODE_M68K_040, c.CS_MODE_M68K_060]

/-- The second components of the array `modes` of the M680X case. -/
def m680xModes (c : ModeConstants) : List Nat :=
  [c.CS_MODE_M680X_6301, c.CS_MODE_M680X_6309, c.CS_MODE_M680X_6800, c.CS_MODE_M680X_6801,
    c.CS_MODE_M680X_6805, c.CS_MODE_M680X_6808, c.CS_MODE_M680X_6809, c.CS_MODE_M680X_6811,
    c.CS_MODE_M680X_CPU12, c.CS_MODE_M680X_HCS08]

/-- The second components of the array `modes` of the MOS65XX case. -/
def mos65xxModes (c : ModeConstants) : List Nat :=
  [c.CS_MODE_MOS65XX_6502, c.CS_MODE_MOS65XX_65C02, c.CS_MODE_MOS65XX_W65C02,
    c.CS_MODE_MOS65XX_65816, c.CS_MODE_MOS65XX_65816_LONG_M, c.CS_MODE_MOS65XX_65816_LONG_X,
    c.CS_MODE_MOS65XX_65816_LONG_MX]

/-- The second components of the array `modes` of the SH case. -/
def shModes (c : ModeConstants) : List Nat :=
  [c.CS_MODE_SH2, c.CS_MODE_SH2A, c.CS_MODE_SH3, c.CS_MODE_SH4, c.CS_MODE_SH4A]

/-- The second components of the array `modes` of the TRICORE case. -/
def tricoreModes (c : ModeConstants) : List Nat :=
  [c.CS_MODE_TRICORE_110, c.CS_MODE_TRICORE_120, c.CS_MODE_TRICORE_130,
    c.CS_MODE_TRICORE_131, c.CS_MODE_TRICORE_160, c.CS_MODE_TRICORE_161,
    c.CS_MODE_TRICORE_162]

/-- The value the `switch` of `drawContent` assigns to `this->m_mode`; `disassemble` passes
this value to `cs_open`.  The variable `littleEndian` is read nowhere in the `switch`. -/
def m_mode (c : ModeConstants) (architecture : Architecture) (s : Settings) : Nat :=
  match architecture with
  | .ARM => s.armMode.value c ||| s.armExtraMode.value c
  | .MIPS => s.mipsMode.value c ||| (if s.microMode then c.CS_MODE_MICRO else 0)
  | .X86 => s.x86Mode.value c
  | .PPC =>
      s.ppcMode.ppcValue c ||| (if s.qpx then c.CS_MODE_QPX else 0)
        ||| (if s.spe then c.CS_MODE_SPE else 0) ||| (if s.booke then c.CS_MODE_BOOKE else 0)
  | .SPARC => if s.v9Mode then c.CS_MODE_V9 else 0
  | .RISCV => s.riscvMode.riscvValue c ||| (if s.compressed then c.CS_MODE_RISCVC else 0)
  | .M68K => (m68kModes c).getD s.m68kSelectedMode.val 0
  | .M680X => (m680xModes c).getD s.m680xSelectedMode.val 0
  | .MOS65XX => (mos65xxModes c).getD s.mos65xxSelectedMode.val 0
  | .BPF => s.bpfMode.value c
  | .SH =>
      (shModes c).getD s.shSelectionMode.val 0 ||| (if s.fpu then c.CS_MODE_SHFPU else 0)
        ||| (if s.dsp then c.CS_MODE_SHDSP else 0)
  | .TRICORE => (tricoreModes c).getD s.tricoreSelectionMode.val 0
  | .WASM => 0
  | .EVM => 0
  | .TMS320C64X => 0
  | .ARM64 => 0
  | .SYSZ => 0
  | .XCORE => 0

/-- The composition the specification describes: the primary mode, or-ed with the
constants of exactly those check boxes that are enabled. -/
def composeMode (primary : Nat) (flags : List (Bool × Nat)) : Nat :=
  ((flags.filter (fun f => f.1)).map (fun f => f.2)).foldl (fun acc v => acc ||| v) primary

/-- The settings as they are when the view is first drawn (the initial values of the
`static` variables), with the endianness given. -/
def defaultSettings (littleEndian : Bool) : Settings :=
  { littleEndian := littleEndian, armMode := .arm, armExtraMode := .default,
    mipsMode := .mips32, microMode := false, x86Mode := .bits32, ppcMode := .bits32,
    qpx := false, spe := false, booke := false, v9Mode := false, riscvMode := .bits32,
    compressed := false, m68kSelectedMode := 0, m680xSelectedMode := 0,
    mos65xxSelectedMode := 0, bpfMode := .classic, shSelectionMode := 0, fpu := false,
    dsp := false, tricoreSelectionMode := 0 }

/-! ## The function `disassemble` around the loop -/

/-- The members of the view that `disassemble` reads or writes. -/
structure View where
  m_architecture : Architecture
  m_mode : Nat
  startAddress : Nat
  size : Nat
  m_baseAddress : Nat
  m_disassembly : List Disassembly

/-- What `disassemble` leaves behind: whether `TaskManager::createTask` was called, the
total it was given, and the state reached by the body of the task. -/
structure Disassembling where
  taskCreated : Bool
  taskTotal : Nat
  body : LoopState
deriving DecidableEq

/-- The call `std::vector::clear()`. -/
def clear (_ : List Disassembly) : List Disassembly := []

/-- The function `ViewDisassembler::disassemble`, observed after `n` evaluations of the loop
head inside the task.  `cs_open` yields the decoder of the opened handle, or `none` when it
does not return `CS_ERR_OK`; it receives `m_architecture` and `m_mode`.  The function
returns `void`; the task is created before `cs_open` is called, and when `cs_open` fails the
body of the task does nothing. -/
def disassemble (cs_open : Architecture → Nat → Option (List Nat → Nat → List cs_insn))
    (provider : Nat → Nat) (view : View) (n : Nat) : Disassembling :=
  { taskCreated := true
    taskTotal := view.size
    body :=
      match cs_open view.m_architecture view.m_mode with
      | some handle =>
          (step 2048
            { startAddress := view.startAddress, size := view.size,
              baseAddress := view.m_baseAddress, provider := provider,
              cs_disasm := handle })^[n]
            { initial with m_disassembly := clear view.m_disassembly }
      | none => { initial with m_disassembly := clear view.m_disassembly, finished := true } }

/-- A capstone that rejects every architecture and mode. -/
def rejecting (_ : Architecture) (_ : Nat) : Option (List Nat → Nat → List cs_insn) := none

/-- A capstone that accepts every architecture and mode and decodes with the given
decoder. -/
def accepting (decoder : List Nat → Nat → List cs_insn) (_ : Architecture) (_ : Nat) :
    Option (List Nat → Nat → List cs_insn) := some decoder

/-- A view on the empty region `{64, 0}` that still holds two rows of an earlier run. -/
def emptyView : View :=
  { m_architecture := Architecture.X86, m_mode := 4, startAddress := 64, size := 0,
    m_baseAddress := 4096,
    m_disassembly :=
      [⟨4096, 64, 1, "90", "nop", ""⟩, ⟨4097, 65, 1, "C3", "ret", ""⟩] }

/-- A view on the region `{16, 5000}` that still holds a row of an earlier run. -/
def staleView : View :=
  { m_architecture := Architecture.X86, m_mode := 4, startAddress := 16, size := 5000,
    m_baseAddress := 4194304,
    m_disassembly := [⟨4096, 64, 1, "90", "nop", ""⟩] }

/-! ## The hexdump command -/

/-- The pair `(startAddress, size - startAddress)` that `handleHexdumpCommand` passes to
`generateHexView` for a file of `actualSize` bytes; `numbers` are the arguments after the
file name as parsed by `std::stoull` (at most two: offset and size). -/
def handleHexdumpCommand (actualSize : Nat) (numbers : List Nat) : Nat × Nat :=
  let startAddress := u64 (numbers.getD 0 0)
  let size := u64 (numbers.getD 1 actualSize)
  let size := min size actualSize
  (startAddress, u64sub size startAddress)

/-! ## The rendering of the bytes as the specification words it -/

/-- The two-digit, zero-padded, upper-case hexadecimal rendering of a byte. -/
def specHexByte (b : Nat) : List Char :=
  List.replicate (2 - (Nat.toDigits 16 b).length) '0' ++ (Nat.toDigits 16 b).map Char.toUpper

/-- The renderings of the bytes, joined by single blanks. -/
def specBytesText (bytes : List Nat) : String :=
  String.mk ([' '].intercalate (bytes.map specHexByte))

/-- The value of a hexadecimal digit. -/
def hexDigitValue (c : Char) : Nat :=
  if c.isDigit then c.toNat - 48 else c.toNat - 55

/-- The number a token of hexadecimal digits stands for. -/
def parseHexToken (token : List Char) : Nat :=
  token.foldl (fun acc c => 16 * acc + hexDigitValue c) 0

/-- The text split at the blanks, every token parsed as a hexadecimal number. -/
def parseBytesText (text : String) : List Nat :=
  (text.data.splitOn ' ').map parseHexToken

/-- The instruction `cpuid` followed by a zero byte, taken as one instruction of three
bytes `0F A2 00` at address `0x1000`. -/
def sampleInsn : cs_insn :=
  ⟨4096, 3, [15, 162, 0], "cpuid", ""⟩

/-! ## Selection of a row (`drawContent`) -/

/-- The arguments of `ImHexApi::HexEditor::setSelection(instruction.offset,
instruction.size)` when row `i` of the table is clicked, if there is such a row. -/
def setSelection (m_disassembly : List Disassembly) (i : Nat) : Option (Nat × Nat) :=
  (m_disassembly[i]?).map (fun instruction => (instruction.offset, instruction.size))

/-! ## Elementary facts about the step function -/

theorem step_of_finished (W : Nat) (env : Env) (s : LoopState) (h : s.finished = true) :
    step W env s = s := by
  simp [step, h]

theorem step_exit (W : Nat) (env : Env) (s : LoopState) (h : s.finished = false)
    (ha : ¬ s.address < env.size) : step W env s = { s with finished := true } := by
  simp [step, h, ha]

theorem step_stall (W : Nat) (env : Env) (s : LoopState) (h : s.finished = false)
    (ha : s.address < env.size) (hi : instructionsAt W env s.address = []) :
    step W env s =
      { s with
        updates := s.updates ++ [s.address]
        reads := s.reads ++ [(u64 (env.startAddress + s.address), bufferSize W env s.address)]
        decodes := s.decodes ++ [(u64 (env.baseAddress + s.address), 0)]
        finished := true } := by
  simp [step, h, ha, hi]

theorem step_body (W : Nat) (env : Env) (s : LoopState) (h : s.finished = false)
    (ha : s.address < env.size) (hi : instructionsAt W env s.address ≠ []) :
    step W env s =
      { s with
        updates := s.updates ++ [s.address]
        reads := s.reads ++ [(u64 (env.startAddress + s.address), bufferSize W env s.address)]
        decodes := s.decodes ++
          [(u64 (env.baseAddress + s.address), (instructionsAt W env s.address).length)]
        m_disassembly :=
          s.m_disassembly ++ convert env.startAddress s.address (instructionsAt W env s.address) 0
        address := nextAddress W env s.address } := by
  simp [step, h, ha, hi]

theorem run_succ (W : Nat) (env : Env) (n : Nat) :
    run W env (n + 1) = step W env (run W env n) := rfl

theorem run_stable (W : Nat) (env : Env) (n : Nat) (h : (run W env n).finished = true) :
    ∀ m, n ≤ m → run W env m = run W env n := by
  intro m hm
  induction m, hm using Nat.le_induction with
  | base => rfl
  | succ k _ ih => rw [run_succ, ih, step_of_finished W env _ h]

theorem length_read (provider : Nat → Nat) (offset length : Nat) :
    (read provider offset length).length = length := by
  simp [read]

theorem length_chunk (W : Nat) (env : Env) (address : Nat) :
    (chunk W env address).length = bufferSize W env address := by
  simp [chunk, length_read]

theorem bufferSize_pos (W : Nat) (env : Env) (address : Nat) (hW : 1 ≤ W)
    (ha : address < env.size) : 1 ≤ bufferSize W env address := by
  unfold bufferSize
  omega

theorem chunk_ne_nil (W : Nat) (env : Env) (address : Nat) (hW : 1 ≤ W)
    (ha : address < env.size) : chunk W env address ≠ [] := by
  intro h
  have h1 := length_chunk W env address
  have h2 := bufferSize_pos W env address hW ha
  rw [h] at h1
  simp at h1
  omega

theorem head?_chunk (W : Nat) (env : Env) (address : Nat) (hW : 1 ≤ W)
    (ha : address < env.size) :
    (chunk W env address).head? = some (env.provider (u64 (env.startAddress + address))) := by
  have h := bufferSize_pos W env address hW ha
  obtain ⟨k, hk⟩ : ∃ k, bufferSize W env address = k + 1 := ⟨bufferSize W env address - 1, by omega⟩
  simp [chunk, read, hk, List.range_succ_eq_map]

/-! ## The byte counter and the rows of one chunk -/

theorem usedBytesFrom_eq (l : List cs_insn) (u : Nat)
    (h : u + totalSize l < 18446744073709551616) : usedBytesFrom l u = u + totalSize l := by
  induction l generalizing u with
  | nil => simp [usedBytesFrom, totalSize]
  | cons i rest ih =>
    simp only [totalSize, List.map_cons, List.sum_cons] at h
    have hu : u64 (u + i.size) = u + i.size := by unfold u64; omega
    simp only [usedBytesFrom, hu, totalSize, List.map_cons, List.sum_cons]
    rw [ih (u + i.size) (by simp only [totalSize]; omega)]
    simp only [totalSize]
    omega

theorem usedBytes_eq (l : List cs_insn) (h : totalSize l < 18446744073709551616) :
    usedBytes l = totalSize l := by
  unfold usedBytes
  rw [usedBytesFrom_eq l 0 (by omega)]
  omega

theorem length_le_totalSize (l : List cs_insn) (h : ∀ i ∈ l, 1 ≤ i.size) :
    l.length ≤ totalSize l := by
  induction l with
  | nil => simp [totalSize]
  | cons i rest ih =>
    have h1 := h i (by simp)
    have h2 := ih (fun j hj => h j (by simp [hj]))
    simp only [totalSize, List.map_cons, List.sum_cons, List.length_cons] at *
    omega

theorem totalSize_append (l l' : List cs_insn) :
    totalSize (l ++ l') = totalSize l + totalSize l' := by
  simp [totalSize]

theorem tiles_append (p q r : Nat) (l l' : List Disassembly) (h : Tiles p l q)
    (h' : Tiles q l' r) : Tiles p (l ++ l') r := by
  induction l generalizing p with
  | nil =>
    simp only [Tiles] at h
    subst h
    simpa using h'
  | cons d rest ih =>
    obtain ⟨h1, h2, h3⟩ := h
    exact ⟨h1, h2, ih _ h3⟩

theorem ordered_mono_left (p p' q : Nat) (l : List Disassembly) (h : Ordered p l q)
    (hp : p' ≤ p) : Ordered p' l q := by
  cases l with
  | nil =>
    simp only [Ordered] at *
    omega
  | cons d rest =>
    obtain ⟨h1, h2, h3⟩ := h
    exact ⟨by omega, h2, h3⟩

theorem ordered_append (p q r : Nat) (l l' : List Disassembly) (h : Ordered p l q)
    (h' : Ordered q l' r) : Ordered p (l ++ l') r := by
  induction l generalizing p with
  | nil =>
    simp only [Ordered] at h
    simpa using ordered_mono_left q p r l' h' h
  | cons d rest ih =>
    obtain ⟨h1, h2, h3⟩ := h
    exact ⟨h1, h2, ih _ h3⟩

theorem ordered_of_tiles (p q : Nat) (l : List Disassembly) (h : Tiles p l q) :
    Ordered p l q := by
  induction l generalizing p with
  | nil =>
    simp only [Tiles] at h
    simp only [Ordered]
    omega
  | cons d rest ih =>
    obtain ⟨h1, h2, h3⟩ := h
    refine ⟨by omega, h2, ?_⟩
    rw [h1]
    exact ih _ h3

theorem ordered_le (p q : Nat) (l : List Disassembly) (h : Ordered p l q) : p ≤ q := by
  induction l generalizing p with
  | nil => simpa [Ordered] using h
  | cons d rest ih =>
    obtain ⟨h1, h2, h3⟩ := h
    have := ih _ h3
    omega

theorem ordered_mem (p q : Nat) (l : List Disassembly) (h : Ordered p l q) :
    ∀ d ∈ l, p ≤ d.offset ∧ 1 ≤ d.size ∧ d.offset + d.size ≤ q := by
  induction l generalizing p with
  | nil => simp
  | cons d rest ih =>
    obtain ⟨h1, h2, h3⟩ := h
    intro e he
    rcases List.mem_cons.mp he with rfl | he
    · exact ⟨h1, h2, ordered_le _ _ _ h3⟩
    · have := ih _ h3 e he
      exact ⟨by omega, this.2.1, this.2.2⟩

theorem ordered_pairwise (p q : Nat) (l : List Disassembly) (h : Ordered p l q) :
    l.Pairwise (fun a b => a.offset + a.size ≤ b.offset) := by
  induction l generalizing p with
  | nil => simp
  | cons d rest ih =>
    obtain ⟨_, _, h3⟩ := h
    refine List.pairwise_cons.mpr ⟨?_, ih _ h3⟩
    intro e he
    exact (ordered_mem _ _ _ h3 e he).1

theorem ordered_increasing (p q : Nat) (l : List Disassembly) (h : Ordered p l q) :
    (l.map Disassembly.offset).Pairwise (fun a b => a < b) := by
  rw [List.pairwise_map]
  refine List.Pairwise.imp_of_mem ?_ (ordered_pairwise p q l h)
  intro a b ha _ hab
  have := (ordered_mem p q l h a ha).2.1
  omega

theorem tiles_chain (p q : Nat) (l : List Disassembly) (h : Tiles p l q) :
    l.Chain' (fun a b => a.offset + a.size = b.offset) ∧ (∀ d ∈ l.head?, d.offset = p) := by
  induction l generalizing p with
  | nil => simp
  | cons d rest ih =>
    obtain ⟨h1, _, h3⟩ := h
    have := ih _ h3
    refine ⟨List.chain'_cons'.mpr ⟨?_, this.1⟩, by simpa using h1⟩
    intro e he
    rw [this.2 e he, h1]

theorem tiles_convert (start a : Nat) (l : List cs_insn) (u : Nat)
    (hpos : ∀ i ∈ l, 1 ≤ i.size)
    (h : start + a + u + totalSize l < 18446744073709551616) :
    Tiles (start + a + u) (convert start a l u) (start + a + u + totalSize l) := by
  induction l generalizing u with
  | nil => simp [convert, Tiles, totalSize]
  | cons i rest ih =>
    simp only [totalSize, List.map_cons, List.sum_cons] at h
    have hu : u64 (u + i.size) = u + i.size := by unfold u64; omega
    have ho : u64 (start + a + u) = start + a + u := by unfold u64; omega
    have hrest := ih (u + i.size) (fun j hj => hpos j (by simp [hj]))
      (by simp only [totalSize]; omega)
    simp only [convert, hu, Tiles, toDisassembly, ho, totalSize, List.map_cons, List.sum_cons]
    refine ⟨trivial, hpos i (by simp), ?_⟩
    have e1 : start + a + u + i.size = start + a + (u + i.size) := by omega
    have e2 : start + a + u + (i.size + (List.map cs_insn.size rest).sum)
        = start + a + (u + i.size) + totalSize rest := by simp only [totalSize]; omega
    rw [e1, e2]
    exact hrest

/-! ## The next value of the loop variable -/

theorem nextAddress_eq (W : Nat) (env : Env) (a : Nat) (ha : a < env.size)
    (hsize : env.size + W ≤ 18446744073709551616)
    (hpos : ∀ i ∈ instructionsAt W env a, 1 ≤ i.size)
    (hle : totalSize (instructionsAt W env a) ≤ bufferSize W env a) :
    nextAddress W env a
      = a + totalSize (instructionsAt W env a) + (W - bufferSize W env a) := by
  have hb : bufferSize W env a ≤ W := by unfold bufferSize; omega
  have hb' : bufferSize W env a ≤ env.size - a := by unfold bufferSize; omega
  have hused := usedBytes_eq (instructionsAt W env a) (by omega)
  have hcount := length_le_totalSize _ hpos
  unfold nextAddress adjusted
  rw [hused]
  split_ifs with hc
  · unfold u64sub u64
    omega
  · unfold u64
    omega

theorem totalSize_le_of_typed (l : List cs_insn) (h : ∀ i ∈ l, i.size < 65536) :
    totalSize l ≤ 65535 * l.length := by
  induction l with
  | nil => simp [totalSize]
  | cons i rest ih =>
    have h1 := h i (by simp)
    have h2 := ih (fun j hj => h j (by simp [hj]))
    simp only [totalSize, List.map_cons, List.sum_cons, List.length_cons] at *
    omega

theorem le_nextAddress_typed (env : Env) (a : Nat) (ha : a < env.size)
    (hsize : env.size + 268435456 ≤ 18446744073709551616)
    (htyped : ∀ i ∈ instructionsAt 2048 env a, i.size < 65536) :
    a ≤ nextAddress 2048 env a := by
  have hb : bufferSize 2048 env a ≤ 2048 := by unfold bufferSize; omega
  have ht := totalSize_le_of_typed _ htyped
  unfold nextAddress adjusted
  split_ifs with hc
  · have hused := usedBytes_eq (instructionsAt 2048 env a) (by omega)
    rw [hused]
    unfold u64sub u64
    omega
  · unfold u64
    omega

/-! ## Invariants of the loop -/

theorem step_induction (W : Nat) (env : Env) (P : LoopState → Prop) (s : LoopState)
    (hs : P s) (hexit : P { s with finished := true })
    (hstall : s.address < env.size →
      P { s with
          updates := s.updates ++ [s.address]
          reads := s.reads ++ [(u64 (env.startAddress + s.address), bufferSize W env s.address)]
          decodes := s.decodes ++ [(u64 (env.baseAddress + s.address), 0)]
          finished := true })
    (hbody : s.address < env.size → instructionsAt W env s.address ≠ [] →
      P { s with
          updates := s.updates ++ [s.address]
          reads := s.reads ++ [(u64 (env.startAddress + s.address), bufferSize W env s.address)]
          decodes := s.decodes ++
            [(u64 (env.baseAddress + s.address), (instructionsAt W env s.address).length)]
          m_disassembly :=
            s.m_disassembly ++
              convert env.startAddress s.address (instructionsAt W env s.address) 0
          address := nextAddress W env s.address }) :
    P (step W env s) := by
  by_cases hf : s.finished = true
  · rw [step_of_finished W env s hf]
    exact hs
  · have hf' : s.finished = false := by simpa using hf
    by_cases ha : s.address < env.size
    · by_cases hi : instructionsAt W env s.address = []
      · rw [step_stall W env s hf' ha hi]
        exact hstall ha
      · rw [step_body W env s hf' ha hi]
        exact hbody ha hi
    · rw [step_exit W env s hf' ha]
      exact hexit

theorem run_invariant (W : Nat) (env : Env) (P : LoopState → Prop) (h0 : P initial)
    (hstep : ∀ s, P s → P (step W env s)) : ∀ n, P (run W env n) := by
  intro n
  induction n with
  | zero => exact h0
  | succ k ih => exact hstep _ ih

theorem decodesWithin_at (W : Nat) (env : Env) (a : Nat) (h : DecodesWithin env.cs_disasm) :
    (∀ i ∈ instructionsAt W env a, 1 ≤ i.size) ∧
    totalSize (instructionsAt W env a) ≤ bufferSize W env a := by
  have := h (chunk W env a) (u64 (env.baseAddress + a))
  rw [length_chunk] at this
  exact this

theorem decodesAll_at (W : Nat) (env : Env) (a : Nat) (hW : 1 ≤ W) (ha : a < env.size)
    (h : DecodesAll env.cs_disasm) :
    (∀ i ∈ instructionsAt W env a, 1 ≤ i.size) ∧
    totalSize (instructionsAt W env a) = bufferSize W env a := by
  have := h (chunk W env a) (u64 (env.baseAddress + a)) (chunk_ne_nil W env a hW ha)
  rw [length_chunk] at this
  exact this

theorem tiles_chunk (W : Nat) (env : Env) (a : Nat) (ha : a < env.size)
    (hregion : env.startAddress + env.size < 18446744073709551616)
    (hpos : ∀ i ∈ instructionsAt W env a, 1 ≤ i.size)
    (hle : totalSize (instructionsAt W env a) ≤ bufferSize W env a) :
    Tiles (env.startAddress + a) (convert env.startAddress a (instructionsAt W env a) 0)
      (env.startAddress + a + totalSize (instructionsAt W env a)) := by
  have hb' : bufferSize W env a ≤ env.size - a := by unfold bufferSize; omega
  have := tiles_convert env.startAddress a (instructionsAt W env a) 0 hpos (by omega)
  simpa using this

theorem ordered_invariant (W : Nat) (env : Env)
    (hregion : env.startAddress + env.size < 18446744073709551616)
    (hsize : env.size + W ≤ 18446744073709551616)
    (hdec : DecodesWithin env.cs_disasm) (n : Nat) : OrderedInv env (run W env n) := by
  refine run_invariant W env (OrderedInv env) ?_ ?_ n
  · exact ⟨env.startAddress, by simp [initial, Ordered], by omega, by simp [initial]⟩
  · intro s hs
    refine step_induction W env (OrderedInv env) s hs hs (fun _ => hs) ?_
    intro ha _
    obtain ⟨q, hq1, hq2, hq3⟩ := hs
    obtain ⟨hpos, hle⟩ := decodesWithin_at W env s.address hdec
    have hb' : bufferSize W env s.address ≤ env.size - s.address := by unfold bufferSize; omega
    have hnew := ordered_of_tiles _ _ _ (tiles_chunk W env s.address ha hregion hpos hle)
    have hnext := nextAddress_eq W env s.address ha hsize hpos hle
    refine ⟨env.startAddress + s.address + totalSize (instructionsAt W env s.address),
      ordered_append _ q _ _ _ hq1 (ordered_mono_left _ _ _ _ hnew (hq3 ha)), by omega, ?_⟩
    intro _
    show _ ≤ env.startAddress + nextAddress W env s.address
    omega

theorem tiles_invariant (W : Nat) (env : Env) (hW : 1 ≤ W)
    (hregion : env.startAddress + env.size < 18446744073709551616)
    (hsize : env.size + W ≤ 18446744073709551616)
    (hdec : DecodesAll env.cs_disasm) (n : Nat) : TilesInv env (run W env n) := by
  refine run_invariant W env (TilesInv env) ?_ ?_ n
  · exact ⟨env.startAddress, by simp [initial, Tiles], by simp [initial]⟩
  · intro s hs
    refine step_induction W env (TilesInv env) s hs hs (fun _ => hs) ?_
    intro ha _
    obtain ⟨q, hq1, hq2⟩ := hs
    obtain ⟨hpos, heq⟩ := decodesAll_at W env s.address hW ha hdec
    have hb : bufferSize W env s.address = min W (env.size - s.address) := rfl
    have hnew := tiles_chunk W env s.address ha hregion hpos (by omega)
    have hnext := nextAddress_eq W env s.address ha hsize hpos (by omega)
    rw [← hq2 ha] at hnew
    refine ⟨_, tiles_append _ q _ _ _ hq1 hnew, ?_⟩
    intro hlt
    have hlt' : nextAddress W env s.address < env.size := hlt
    show _ = env.startAddress + nextAddress W env s.address
    have := hq2 ha
    omega

theorem updates_invariant (W : Nat) (env : Env)
    (hnext : ∀ a, a < env.size → a ≤ nextAddress W env a) (n : Nat) :
    UpdatesInv env (run W env n) := by
  refine run_invariant W env (UpdatesInv env) ?_ ?_ n
  · simp [UpdatesInv, initial]
  · intro s hs
    have happ : s.address < env.size →
        (s.updates ++ [s.address]).Pairwise (fun a b => a ≤ b) := by
      intro _
      refine List.pairwise_append.mpr ⟨hs.1, by simp, ?_⟩
      intro v hv w hw
      rw [List.mem_singleton.mp hw]
      exact (hs.2 v hv).1
    refine step_induction W env (UpdatesInv env) s hs hs ?_ ?_
    · intro ha
      refine ⟨happ ha, ?_⟩
      intro v hv
      rcases List.mem_append.mp hv with h | h
      · exact hs.2 v h
      · rw [List.mem_singleton.mp h]
        exact ⟨le_refl _, ha⟩
    · intro ha _
      have hge := hnext s.address ha
      refine ⟨happ ha, ?_⟩
      intro v hv
      show v ≤ nextAddress W env s.address ∧ v < env.size
      rcases List.mem_append.mp hv with h | h
      · have := hs.2 v h
        exact ⟨by omega, this.2⟩
      · rw [List.mem_singleton.mp h]
        exact ⟨hge, ha⟩

theorem stamped_convert (start base a : Nat) (l : List cs_insn) (u v : Nat)
    (hst : Stamped v l)
    (hv : v % 18446744073709551616 = (base + a + u) % 18446744073709551616) :
    ∀ d ∈ convert start a l u, d.address = u64 (base + u64sub d.offset start) := by
  induction l generalizing u v with
  | nil => simp [convert]
  | cons i rest ih =>
    obtain ⟨h1, h2⟩ := hst
    intro d hd
    simp only [convert, List.mem_cons] at hd
    rcases hd with rfl | hd
    · simp only [toDisassembly, h1]
      unfold u64sub u64
      omega
    · refine ih (u64 (u + i.size)) (v + i.size) h2 ?_ d hd
      unfold u64
      omega

theorem stamped_invariant (W : Nat) (env : Env)
    (hdec : ∀ buffer address, Stamped address (env.cs_disasm buffer address)) (n : Nat) :
    StampedInv env (run W env n) := by
  refine run_invariant W env (StampedInv env) ?_ ?_ n
  · simp [StampedInv, initial]
  · intro s hs
    refine step_induction W env (StampedInv env) s hs hs (fun _ => hs) ?_
    intro _ _ d hd
    rcases List.mem_append.mp hd with h | h
    · exact hs d h
    · refine stamped_convert env.startAddress env.baseAddress s.address _ 0
        (u64 (env.baseAddress + s.address)) (hdec _ _) ?_ d h
      unfold u64
      omega

/-! ## Claims settled by direct evaluation or by one step -/

/-- C5: with the window constant taken as 4, region `{0, 10}` and the decoder that returns
one three-byte instruction when the chunk holds at least three bytes, the loop reads the
chunks `[0,4)`, `[3,7)`, `[6,10)`, `[9,10)`, the fourth call of the decoder returns no
instruction and ends the loop (it was still running after three iterations), and the
result consists of exactly three rows at offsets 0, 3, 6, each of size 3. -/
theorem scenario_window_four :
    (run 4 scenarioEnv 4).reads = [(0, 4), (3, 4), (6, 4), (9, 1)] ∧
    (run 4 scenarioEnv 4).decodes = [(0, 1), (3, 1), (6, 1), (9, 0)] ∧
    (run 4 scenarioEnv 4).updates = [0, 3, 6, 9] ∧
    (run 4 scenarioEnv 3).finished = false ∧
    (run 4 scenarioEnv 4).finished = true ∧
    (run 4 scenarioEnv 4).m_disassembly.map (fun d => (d.offset, d.size))
      = [(0, 3), (3, 3), (6, 3)] ∧
    (∀ m, 4 ≤ m → run 4 scenarioEnv m = run 4 scenarioEnv 4) := by
  refine ⟨by decide, by decide, by decide, by decide, by decide, by decide, ?_⟩
  exact run_stable 4 scenarioEnv 4 (by decide)

/-- C7: for a region of size at least 1 and a decoder that returns no instruction on every
non-empty chunk, the loop calls the decoder exactly once, has terminated after that
iteration (and stays so), and the result sequence is empty. -/
theorem stall_on_first_chunk (env : Env) (hsize : 1 ≤ env.size)
    (hstall : ∀ buffer address, buffer ≠ [] → env.cs_disasm buffer address = []) :
    (run 2048 env 1).finished = true ∧
    (run 2048 env 1).decodes.length = 1 ∧
    (run 2048 env 1).m_disassembly = [] ∧
    (∀ m, 1 ≤ m → (run 2048 env m).finished = true ∧ (run 2048 env m).decodes.length = 1 ∧
      (run 2048 env m).m_disassembly = []) := by
  have hi : instructionsAt 2048 env initial.address = [] :=
    hstall _ _ (chunk_ne_nil 2048 env 0 (by omega) (by omega))
  have h1 : run 2048 env 1 = _ :=
    step_stall 2048 env initial rfl (by simpa [initial] using hsize) hi
  have hf : (run 2048 env 1).finished = true := by rw [h1]
  have hd : (run 2048 env 1).decodes.length = 1 := by rw [h1]; simp [initial]
  have hm : (run 2048 env 1).m_disassembly = [] := by rw [h1]; simp [initial]
  refine ⟨hf, hd, hm, ?_⟩
  intro m hm1
  rw [run_stable 2048 env 1 hf m hm1]
  exact ⟨hf, hd, hm⟩

/-- Witness for C7: a region of 5000 bytes with the decoder that never decodes. -/
theorem stall_on_first_chunk_witness :
    (run 2048 stalledEnv 1).finished = true ∧
    (run 2048 stalledEnv 1).decodes.length = 1 ∧
    (run 2048 stalledEnv 1).m_disassembly = [] ∧
    (∀ m, 1 ≤ m → (run 2048 stalledEnv m).finished = true ∧
      (run 2048 stalledEnv m).decodes.length = 1 ∧
      (run 2048 stalledEnv m).m_disassembly = []) :=
  stall_on_first_chunk stalledEnv (by decide) (fun _ _ _ => rfl)

/-- C8: when the loop is still running after `n` iterations and the decoder returns no
instruction in the next one, the loop ends at that iteration and the result sequence is, then
and at every later time, exactly the sequence held after the first `n` iterations. -/
theorem stall_keeps_rows (env : Env) (n : Nat)
    (hrun : (run 2048 env n).finished = false)
    (hlt : (run 2048 env n).address < env.size)
    (hstall : instructionsAt 2048 env (run 2048 env n).address = []) :
    (run 2048 env (n + 1)).finished = true ∧
    ∀ m, n + 1 ≤ m → (run 2048 env m).m_disassembly = (run 2048 env n).m_disassembly := by
  have h1 : run 2048 env (n + 1) = _ := step_stall 2048 env _ hrun hlt hstall
  have hf : (run 2048 env (n + 1)).finished = true := by rw [h1]
  refine ⟨hf, ?_⟩
  intro m hm
  rw [run_stable 2048 env (n + 1) hf m hm, h1]

/-- C9: for a region of size 0 the loop makes no read and no call of the decoder, the result
sequence stays empty, and the loop has ended at the first evaluation of its head. -/
theorem empty_region (env : Env) (hsize : env.size = 0) (n : Nat) :
    (run 2048 env n).reads = [] ∧ (run 2048 env n).decodes = [] ∧
    (run 2048 env n).updates = [] ∧ (run 2048 env n).m_disassembly = [] ∧
    (1 ≤ n → (run 2048 env n).finished = true) := by
  have h1 : run 2048 env 1 = { initial with finished := true } :=
    step_exit 2048 env initial rfl (by simp [initial, hsize])
  rcases Nat.eq_zero_or_pos n with h0 | hpos
  · subst h0
    simp [run, initial]
  · rw [run_stable 2048 env 1 (by rw [h1]) n hpos, h1]
    simp [initial]

/-- Witness for C9: the empty region `{64, 0}` after five evaluations of the loop head. -/
theorem empty_region_witness :
    (run 2048 emptyEnv 5).reads = [] ∧ (run 2048 emptyEnv 5).decodes = [] ∧
    (run 2048 emptyEnv 5).updates = [] ∧ (run 2048 emptyEnv 5).m_disassembly = [] ∧
    (1 ≤ 5 → (run 2048 emptyEnv 5).finished = true) :=
  empty_region emptyEnv rfl 5

/-! ## Facts about the example decoders -/

theorem decodesWithin_threeByteDecoder : DecodesWithin threeByteDecoder := by
  intro buffer address
  by_cases h : 3 ≤ buffer.length
  · simp only [threeByteDecoder, h, if_true, totalSize]
    refine ⟨?_, by simpa using h⟩
    intro i hi
    rw [List.mem_singleton.mp hi]
    show 1 ≤ 3
    omega
  · simp [threeByteDecoder, h, totalSize]

theorem typed_threeByteDecoder (buffer : List Nat) (address : Nat) :
    ∀ i ∈ threeByteDecoder buffer address, i.size < 65536 := by
  intro i hi
  unfold threeByteDecoder at hi
  split_ifs at hi
  · rw [List.mem_singleton.mp hi]
    show 3 < 65536
    omega
  · simp at hi

theorem decodesAll_byteDecoder : DecodesAll byteDecoder := by
  intro buffer address _
  refine ⟨?_, ?_⟩
  · intro i hi
    simp only [byteDecoder, List.mem_map] at hi
    obtain ⟨k, _, rfl⟩ := hi
    exact le_refl 1
  · simp [totalSize, byteDecoder, Function.comp_def]

theorem stamped_range' (f : Nat → List Nat) (address : Nat) (n s : Nat) :
    Stamped (address + s)
      ((List.range' s n).map (fun k => (⟨u64 (address + k), 1, f k, ".byte", ""⟩ : cs_insn))) := by
  induction n generalizing s with
  | zero => simp [Stamped]
  | succ m ih =>
    simp only [List.range'_succ, List.map_cons, Stamped, true_and]
    exact ih (s + 1)

theorem stamped_byteDecoder (buffer : List Nat) (address : Nat) :
    Stamped address (byteDecoder buffer address) := by
  have := stamped_range' (fun k => [buffer.getD k 0]) address buffer.length 0
  simpa [byteDecoder, List.range_eq_range'] using this

/-! ## The loop variable while fewer than `2 ^ 53` rows are held -/

theorem length_convert (start a : Nat) (l : List cs_insn) (u : Nat) :
    (convert start a l u).length = l.length := by
  induction l generalizing u with
  | nil => rfl
  | cons i rest ih => simp [convert, ih]

theorem nextAddress_eq_room (W : Nat) (env : Env) (a : Nat)
    (hroom : a + W < 18446744073709551616)
    (hpos : ∀ i ∈ instructionsAt W env a, 1 ≤ i.size)
    (hle : totalSize (instructionsAt W env a) ≤ bufferSize W env a) :
    nextAddress W env a
      = a + totalSize (instructionsAt W env a) + (W - bufferSize W env a) := by
  have hb : bufferSize W env a ≤ W := by unfold bufferSize; omega
  have hused := usedBytes_eq (instructionsAt W env a) (by omega)
  have hcount := length_le_totalSize _ hpos
  unfold nextAddress adjusted
  rw [hused]
  split_ifs with hc
  · unfold u64sub u64
    omega
  · unfold u64
    omega

theorem nextAddress_typed_room (env : Env) (a : Nat)
    (hroom : a + 2048 + 65535 * (instructionsAt 2048 env a).length < 18446744073709551616)
    (htyped : ∀ i ∈ instructionsAt 2048 env a, i.size < 65536) :
    a ≤ nextAddress 2048 env a ∧
    nextAddress 2048 env a ≤ a + 2048 + 65535 * (instructionsAt 2048 env a).length := by
  have hb : bufferSize 2048 env a ≤ 2048 := by unfold bufferSize; omega
  have ht := totalSize_le_of_typed _ htyped
  unfold nextAddress adjusted
  split_ifs with hc
  · have hused := usedBytes_eq (instructionsAt 2048 env a) (by omega)
    rw [hused]
    unfold u64sub u64
    omega
  · unfold u64
    omega

theorem ordered_feasible (env : Env)
    (hregion : env.startAddress + env.size < 18446744073709551616)
    (hdec : DecodesWithin env.cs_disasm) (n : Nat) :
    (run 2048 env n).m_disassembly.length < 9007199254740992 →
      OrderedInv env (run 2048 env n) ∧
      (run 2048 env n).address ≤ 2048 * (run 2048 env n).m_disassembly.length := by
  refine run_invariant 2048 env
    (fun s => s.m_disassembly.length < 9007199254740992 →
      OrderedInv env s ∧ s.address ≤ 2048 * s.m_disassembly.length)
    ?_ ?_ n
  · intro _
    exact ⟨⟨env.startAddress, by simp [initial, Ordered], by omega, by simp [initial]⟩,
      by simp [initial]⟩
  · intro s hs
    refine step_induction 2048 env
      (fun s => s.m_disassembly.length < 9007199254740992 →
        OrderedInv env s ∧ s.address ≤ 2048 * s.m_disassembly.length)
      s hs hs (fun _ => hs) ?_
    intro ha hi hlen
    have hlen' : s.m_disassembly.length + (instructionsAt 2048 env s.address).length
        < 9007199254740992 := by
      have := hlen
      simp only [List.length_append, length_convert] at this
      exact this
    have hcount : 1 ≤ (instructionsAt 2048 env s.address).length := List.length_pos.mpr hi
    obtain ⟨⟨q, hq1, hq2, hq3⟩, haddr⟩ := hs (by omega)
    obtain ⟨hpos, hle⟩ := decodesWithin_at 2048 env s.address hdec
    have hb : bufferSize 2048 env s.address ≤ 2048 := by unfold bufferSize; omega
    have hb' : bufferSize 2048 env s.address ≤ env.size - s.address := by
      unfold bufferSize; omega
    have hnew := ordered_of_tiles _ _ _ (tiles_chunk 2048 env s.address ha hregion hpos hle)
    have hnext := nextAddress_eq_room 2048 env s.address (by omega) hpos hle
    refine ⟨⟨env.startAddress + s.address + totalSize (instructionsAt 2048 env s.address),
      ordered_append _ q _ _ _ hq1 (ordered_mono_left _ _ _ _ hnew (hq3 ha)), by omega, ?_⟩, ?_⟩
    · intro _
      show _ ≤ env.startAddress + nextAddress 2048 env s.address
      omega
    · show nextAddress 2048 env s.address
        ≤ 2048 * (s.m_disassembly ++
            convert env.startAddress s.address (instructionsAt 2048 env s.address) 0).length
      simp only [List.length_append, length_convert]
      omega

theorem tiles_feasible (env : Env)
    (hregion : env.startAddress + env.size < 18446744073709551616)
    (hdec : DecodesAll env.cs_disasm) (n : Nat) :
    (run 2048 env n).m_disassembly.length < 9007199254740992 →
      TilesInv env (run 2048 env n) ∧
      (run 2048 env n).address ≤ 2048 * (run 2048 env n).m_disassembly.length := by
  refine run_invariant 2048 env
    (fun s => s.m_disassembly.length < 9007199254740992 →
      TilesInv env s ∧ s.address ≤ 2048 * s.m_disassembly.length)
    ?_ ?_ n
  · intro _
    exact ⟨⟨env.startAddress, by simp [initial, Tiles], by simp [initial]⟩, by simp [initial]⟩
  · intro s hs
    refine step_induction 2048 env
      (fun s => s.m_disassembly.length < 9007199254740992 →
        TilesInv env s ∧ s.address ≤ 2048 * s.m_disassembly.length)
      s hs hs (fun _ => hs) ?_
    intro ha hi hlen
    have hlen' : s.m_disassembly.length + (instructionsAt 2048 env s.address).length
        < 9007199254740992 := by
      have := hlen
      simp only [List.length_append, length_convert] at this
      exact this
    have hcount : 1 ≤ (instructionsAt 2048 env s.address).length := List.length_pos.mpr hi
    obtain ⟨⟨q, hq1, hq2⟩, haddr⟩ := hs (by omega)
    obtain ⟨hpos, heq⟩ := decodesAll_at 2048 env s.address (by omega) ha hdec
    have hb : bufferSize 2048 env s.address = min 2048 (env.size - s.address) := rfl
    have hnew := tiles_chunk 2048 env s.address ha hregion hpos (by omega)
    have hnext := nextAddress_eq_room 2048 env s.address (by omega) hpos (by omega)
    rw [← hq2 ha] at hnew
    refine ⟨⟨_, tiles_append _ q _ _ _ hq1 hnew, ?_⟩, ?_⟩
    · intro hlt
      have hlt' : nextAddress 2048 env s.address < env.size := hlt
      show _ = env.startAddress + nextAddress 2048 env s.address
      have := hq2 ha
      omega
    · show nextAddress 2048 env s.address
        ≤ 2048 * (s.m_disassembly ++
            convert env.startAddress s.address (instructionsAt 2048 env s.address) 0).length
      simp only [List.length_append, length_convert]
      omega

theorem updates_feasible (env : Env)
    (htyped : ∀ buffer address, ∀ i ∈ env.cs_disasm buffer address, i.size < 65536)
    (n : Nat) :
    (run 2048 env n).m_disassembly.length ≤ 140737488355328 →
      UpdatesInv env (run 2048 env n) ∧
      (run 2048 env n).address ≤ 67583 * (run 2048 env n).m_disassembly.length := by
  refine run_invariant 2048 env
    (fun s => s.m_disassembly.length ≤ 140737488355328 →
      UpdatesInv env s ∧ s.address ≤ 67583 * s.m_disassembly.length)
    ?_ ?_ n
  · intro _
    simp [UpdatesInv, initial]
  · intro s hs
    have happ : (∀ v ∈ s.updates, v ≤ s.address) → s.updates.Pairwise (fun a b => a ≤ b) →
        (s.updates ++ [s.address]).Pairwise (fun a b => a ≤ b) := by
      intro hv hp
      refine List.pairwise_append.mpr ⟨hp, by simp, ?_⟩
      intro v hv' w hw
      rw [List.mem_singleton.mp hw]
      exact hv v hv'
    refine step_induction 2048 env
      (fun s => s.m_disassembly.length ≤ 140737488355328 →
        UpdatesInv env s ∧ s.address ≤ 67583 * s.m_disassembly.length)
      s hs hs ?_ ?_
    · intro ha hlen
      obtain ⟨⟨h1, h2⟩, haddr⟩ := hs hlen
      refine ⟨⟨happ (fun v hv => (h2 v hv).1) h1, ?_⟩, haddr⟩
      intro v hv
      rcases List.mem_append.mp hv with h | h
      · exact h2 v h
      · rw [List.mem_singleton.mp h]
        exact ⟨le_refl _, ha⟩
    · intro ha hi hlen
      have hlen' : s.m_disassembly.length + (instructionsAt 2048 env s.address).length
          ≤ 140737488355328 := by
        have := hlen
        simp only [List.length_append, length_convert] at this
        exact this
      have hcount : 1 ≤ (instructionsAt 2048 env s.address).length := List.length_pos.mpr hi
      obtain ⟨⟨h1, h2⟩, haddr⟩ := hs (by omega)
      obtain ⟨hge, hle⟩ := nextAddress_typed_room env s.address (by omega) (htyped _ _)
      refine ⟨⟨happ (fun v hv => (h2 v hv).1) h1, ?_⟩, ?_⟩
      · intro v hv
        show v ≤ nextAddress 2048 env s.address ∧ v < env.size
        rcases List.mem_append.mp hv with h | h
        · have := h2 v h
          exact ⟨by omega, this.2⟩
        · rw [List.mem_singleton.mp h]
          exact ⟨hge, ha⟩
      · show nextAddress 2048 env s.address
          ≤ 67583 * (s.m_disassembly ++
              convert env.startAddress s.address (instructionsAt 2048 env s.address) 0).length
        simp only [List.length_append, length_convert]
        omega

theorem updates_below_size (W : Nat) (env : Env) (n : Nat) :
    ∀ v ∈ (run W env n).updates, v < env.size := by
  refine run_invariant W env (fun s => ∀ v ∈ s.updates, v < env.size)
    (by simp [initial]) ?_ n
  intro s hs
  have happ : s.address < env.size → ∀ v ∈ s.updates ++ [s.address], v < env.size := by
    intro ha v hv
    rcases List.mem_append.mp hv with h | h
    · exact hs v h
    · rw [List.mem_singleton.mp h]
      exact ha
  exact step_induction W env (fun s => ∀ v ∈ s.updates, v < env.size) s hs hs happ
    (fun ha _ => happ ha)

/-! ## Claims about the order of the rows, the progress values and the addresses -/

/-- C3: for every region that lies inside a source of less than `2 ^ 64` bytes and every
decoder that on each non-empty chunk returns instructions of at least one byte whose sizes
sum to exactly the chunk length, the rows held in `m_disassembly` at any time satisfy
`offset[i] + size[i] = offset[i+1]` for every consecutive pair (also across chunks), the
first row starts at the region start, and the offsets are strictly increasing.  The
statement covers every state in which `address` cannot have wrapped around: the region has
at most `2 ^ 64 - 2048` bytes, or fewer than `2 ^ 53` rows are held (every iteration
appends a row and adds at most 2048 to `address`). -/
theorem contiguous_under_full_consumption (env : Env)
    (hregion : env.startAddress + env.size < 18446744073709551616)
    (hdec : DecodesAll env.cs_disasm) (n : Nat)
    (hfeasible : env.size + 2048 ≤ 18446744073709551616 ∨
      (run 2048 env n).m_disassembly.length < 9007199254740992) :
    (run 2048 env n).m_disassembly.Chain' (fun a b => a.offset + a.size = b.offset) ∧
    (∀ d ∈ (run 2048 env n).m_disassembly.head?, d.offset = env.startAddress) ∧
    ((run 2048 env n).m_disassembly.map Disassembly.offset).Pairwise (fun a b => a < b) := by
  have key : TilesInv env (run 2048 env n) := by
    rcases hfeasible with hsize | hrows
    · exact tiles_invariant 2048 env (by omega) hregion hsize hdec n
    · exact (tiles_feasible env hregion hdec n hrows).1
  obtain ⟨q, hq, _⟩ := key
  have h := tiles_chain _ _ _ hq
  exact ⟨h.1, h.2, ordered_increasing _ _ _ (ordered_of_tiles _ _ _ hq)⟩

/-- Witness for C3: region `{4096, 5000}` decoded byte by byte, after four evaluations of
the loop head. -/
theorem contiguous_under_full_consumption_witness :
    (run 2048 bytewiseEnv 4).m_disassembly.Chain' (fun a b => a.offset + a.size = b.offset) ∧
    (∀ d ∈ (run 2048 bytewiseEnv 4).m_disassembly.head?, d.offset = bytewiseEnv.startAddress) ∧
    ((run 2048 bytewiseEnv 4).m_disassembly.map Disassembly.offset).Pairwise
      (fun a b => a < b) :=
  contiguous_under_full_consumption bytewiseEnv (by decide) decodesAll_byteDecoder 4
    (Or.inl (by decide))

/-- C4: for every region that lies inside a source of less than `2 ^ 64` bytes and every
decoder whose instructions have at least one byte each and sum to at most the chunk length
(also when it consumes only part of a chunk), the offsets of the rows held in
`m_disassembly` at any time are strictly increasing in append order.  The statement covers
every state in which `address` cannot have wrapped around: the region has at most
`2 ^ 64 - 2048` bytes, or fewer than `2 ^ 53` rows are held. -/
theorem offsets_strictly_increasing (env : Env)
    (hregion : env.startAddress + env.size < 18446744073709551616)
    (hdec : DecodesWithin env.cs_disasm) (n : Nat)
    (hfeasible : env.size + 2048 ≤ 18446744073709551616 ∨
      (run 2048 env n).m_disassembly.length < 9007199254740992) :
    ((run 2048 env n).m_disassembly.map Disassembly.offset).Pairwise (fun a b => a < b) := by
  have key : OrderedInv env (run 2048 env n) := by
    rcases hfeasible with hsize | hrows
    · exact ordered_invariant 2048 env hregion hsize hdec n
    · exact (ordered_feasible env hregion hdec n hrows).1
  obtain ⟨q, hq, _⟩ := key
  exact ordered_increasing _ _ _ hq

/-- Witness for C4: region `{4096, 5000}` with the decoder that takes three bytes of each
chunk, after six evaluations of the loop head. -/
theorem offsets_strictly_increasing_witness :
    ((run 2048 partialEnv 6).m_disassembly.map Disassembly.offset).Pairwise
      (fun a b => a < b) :=
  offsets_strictly_increasing partialEnv (by decide) decodesWithin_threeByteDecoder 6
    (Or.inl (by decide))

/-- C6: for every region and every decoder (the sizes of its instructions are 16-bit values,
as in `cs_insn`), the values passed to `task.update` up to any point of the run are
non-decreasing, and each of them is at most (indeed below) the region size.  The bound holds
in every state; the order is stated for every state in which `address` cannot have wrapped
around: the region has at most `2 ^ 64 - 2 ^ 28` bytes, or at most `2 ^ 47` rows are held
(an iteration that appends `k` rows adds at most `2048 + 65535 * k` to `address`). -/
theorem progress_monotone_and_bounded (env : Env)
    (htyped : ∀ buffer address, ∀ i ∈ env.cs_disasm buffer address, i.size < 65536)
    (n : Nat) :
    (env.size + 268435456 ≤ 18446744073709551616 ∨
        (run 2048 env n).m_disassembly.length ≤ 140737488355328 →
      (run 2048 env n).updates.Pairwise (fun a b => a ≤ b)) ∧
    ∀ v ∈ (run 2048 env n).updates, v ≤ env.size := by
  refine ⟨?_, fun v hv => le_of_lt (updates_below_size 2048 env n v hv)⟩
  intro hfeasible
  rcases hfeasible with hsize | hrows
  · exact (updates_invariant 2048 env
      (fun a ha => le_nextAddress_typed env a ha hsize (htyped _ _)) n).1
  · exact (updates_feasible env htyped n hrows).1.1

/-- Witness for C6: region `{4096, 5000}` with the decoder that takes three bytes of each
chunk, after six evaluations of the loop head. -/
theorem progress_monotone_and_bounded_witness :
    (run 2048 partialEnv 6).updates.Pairwise (fun a b => a ≤ b) ∧
    ∀ v ∈ (run 2048 partialEnv 6).updates, v ≤ partialEnv.size :=
  ⟨(progress_monotone_and_bounded partialEnv typed_threeByteDecoder 6).1 (Or.inl (by decide)),
    (progress_monotone_and_bounded partialEnv typed_threeByteDecoder 6).2⟩

/-- C10: when the decoder stamps each instruction it returns with the virtual address passed
for the chunk plus the sizes of the instructions before it, every row of the result
satisfies `address = baseAddress + (offset - startAddress)` in arithmetic modulo `2 ^ 64`,
for every region, base address and chunk. -/
theorem virtual_address_mapping (env : Env)
    (hdec : ∀ buffer address, Stamped address (env.cs_disasm buffer address)) (n : Nat)
    (d : Disassembly) (hd : d ∈ (run 2048 env n).m_disassembly) :
    d.address = u64 (env.baseAddress + u64sub d.offset env.startAddress) :=
  stamped_invariant 2048 env hdec n d hd

/-- Witness for C10: region `{4096, 8}` with base address `0x400000`, decoded byte by byte;
the fourth row is the byte `0x03` at offset 4099 and carries the address `0x400003`. -/
theorem virtual_address_mapping_witness :
    (⟨4194307, 4099, 1, "03", ".byte", ""⟩ : Disassembly) ∈ (run 2048 tinyEnv 2).m_disassembly ∧
    (⟨4194307, 4099, 1, "03", ".byte", ""⟩ : Disassembly).address
      = u64 (tinyEnv.baseAddress
          + u64sub (⟨4194307, 4099, 1, "03", ".byte", ""⟩ : Disassembly).offset
              tinyEnv.startAddress) :=
  ⟨by decide,
    virtual_address_mapping tinyEnv stamped_byteDecoder 2 ⟨4194307, 4099, 1, "03", ".byte", ""⟩
      (by decide)⟩

/-! ## The padded region: one decoded chunk, then a stall -/

theorem step_running (W : Nat) (env : Env) (s : LoopState) (h : s.finished = false)
    (ha : s.address < env.size) (hi : instructionsAt W env s.address ≠ []) :
    (step W env s).address = nextAddress W env s.address ∧ (step W env s).finished = false := by
  rw [step_body W env s h ha hi]
  exact ⟨rfl, h⟩

theorem padded_first_chunk :
    instructionsAt 2048 paddedEnv 0 = [⟨0, 2048, [204], "int3", ""⟩] := by
  have h1 := head?_chunk 2048 paddedEnv 0 (by omega) (by decide)
  have h2 := length_chunk 2048 paddedEnv 0
  simp only [instructionsAt, paddingDecoder, paddedEnv] at *
  rw [h1, h2]
  simp [u64, bufferSize]

theorem padded_second_chunk : instructionsAt 2048 paddedEnv 2048 = [] := by
  have h1 := head?_chunk 2048 paddedEnv 2048 (by omega) (by decide)
  simp only [instructionsAt, paddingDecoder, paddedEnv] at *
  rw [h1]
  simp [u64]

theorem padded_after_one :
    (run 2048 paddedEnv 1).address = 2048 ∧ (run 2048 paddedEnv 1).finished = false := by
  have h := step_running 2048 paddedEnv initial rfl (by decide)
    (by rw [show initial.address = 0 from rfl, padded_first_chunk]; simp)
  rw [run_succ]
  refine ⟨?_, h.2⟩
  show (step 2048 paddedEnv initial).address = 2048
  rw [h.1]
  have hb : bufferSize 2048 paddedEnv 0 = 2048 := by decide
  simp only [nextAddress, adjusted, show initial.address = 0 from rfl, padded_first_chunk, hb]
  decide

/-- Witness for C8: on 2048 bytes of padding followed by zeros the first iteration decodes
the whole chunk and the second one stalls. -/
theorem stall_keeps_rows_witness :
    (run 2048 paddedEnv (1 + 1)).finished = true ∧
    ∀ m, 1 + 1 ≤ m →
      (run 2048 paddedEnv m).m_disassembly = (run 2048 paddedEnv 1).m_disassembly :=
  stall_keeps_rows paddedEnv 1 padded_after_one.2
    (by rw [padded_after_one.1]; decide)
    (by rw [padded_after_one.1]; exact padded_second_chunk)

/-! ## The short final chunk -/

theorem totalSize_fixedWidthDecoder (buffer : List Nat) (address : Nat) :
    totalSize (fixedWidthDecoder buffer address) = 4 * (buffer.length / 4) := by
  simp [totalSize, fixedWidthDecoder, Function.comp_def, Nat.mul_comm]

theorem short_first_chunk :
    (instructionsAt 2048 shortEnv 0).length = 511 ∧
    usedBytes (instructionsAt 2048 shortEnv 0) = 2044 := by
  have hb : bufferSize 2048 shortEnv 0 = 2047 := by decide
  have hl := length_chunk 2048 shortEnv 0
  rw [hb] at hl
  have ht := totalSize_fixedWidthDecoder (chunk 2048 shortEnv 0) (u64 (shortEnv.baseAddress + 0))
  rw [hl] at ht
  have hd : shortEnv.cs_disasm = fixedWidthDecoder := rfl
  have hi : instructionsAt 2048 shortEnv 0
      = fixedWidthDecoder (chunk 2048 shortEnv 0) (u64 (shortEnv.baseAddress + 0)) := by
    unfold instructionsAt
    rw [hd]
  refine ⟨?_, ?_⟩
  · rw [hi]
    simp only [fixedWidthDecoder, List.length_map, List.length_range, hl]
  · rw [usedBytes_eq _ (by rw [hi, ht]; omega), hi, ht]

theorem step_updates (W : Nat) (env : Env) (s : LoopState) (h : s.finished = false)
    (ha : s.address < env.size) : (step W env s).updates = s.updates ++ [s.address] := by
  by_cases hi : instructionsAt W env s.address = []
  · rw [step_stall W env s h ha hi]
  · rw [step_body W env s h ha hi]

/-- C1, evaluated where it fails: for the region `{0, 2047}` and the fixed-width decoder the
only chunk of the first iteration has 2047 bytes, the decoder returns 511 instructions that
cover 2044 bytes, so fewer than the chunk holds, the loop goes on, and the next iteration
starts at `address = 2045`, not at `0 + 2044`. -/
theorem resync_after_short_chunk :
    bufferSize 2048 shortEnv 0 = 2047 ∧
    (instructionsAt 2048 shortEnv 0).length = 511 ∧
    usedBytes (instructionsAt 2048 shortEnv 0) = 2044 ∧
    (run 2048 shortEnv 1).finished = false ∧
    (run 2048 shortEnv 1).address = 2045 ∧
    (run 2048 shortEnv 1).address < shortEnv.size ∧
    (run 2048 shortEnv 2).updates = [0, 2045] := by
  have hb : bufferSize 2048 shortEnv 0 = 2047 := by decide
  obtain ⟨hlen, hused⟩ := short_first_chunk
  have h0 : initial.address = 0 := rfl
  have hne : instructionsAt 2048 shortEnv initial.address ≠ [] := by
    intro h
    rw [h0] at h
    rw [h] at hlen
    simp at hlen
  have hnext : nextAddress 2048 shortEnv 0 = 2045 := by
    simp only [nextAddress, adjusted, hlen, hused, hb]
    decide
  have r1 : run 2048 shortEnv 1 = step 2048 shortEnv initial := rfl
  have r2 : run 2048 shortEnv 2 = step 2048 shortEnv (run 2048 shortEnv 1) := rfl
  obtain ⟨ha, hf⟩ := step_running 2048 shortEnv initial rfl (by decide) hne
  rw [h0, hnext, ← r1] at ha
  rw [← r1] at hf
  have hu := step_updates 2048 shortEnv initial rfl (by decide)
  rw [← r1] at hu
  have hlt : (run 2048 shortEnv 1).address < shortEnv.size := by rw [ha]; decide
  have hu2 := step_updates 2048 shortEnv (run 2048 shortEnv 1) hf hlt
  rw [← r2, hu, ha] at hu2
  exact ⟨hb, hlen, hused, hf, ha, hlt, hu2⟩

/-! ## Stream decoders: the result does not depend on the window -/

theorem fitting_fuel (insnAt : Nat → cs_insn) (hpos : ∀ p, 1 ≤ (insnAt p).size)
    (fuel1 fuel2 p L : Nat) (h1 : L ≤ fuel1) (h2 : L ≤ fuel2) :
    fitting insnAt fuel1 p L = fitting insnAt fuel2 p L := by
  induction fuel1 generalizing fuel2 p L with
  | zero =>
    have hL : L = 0 := by omega
    subst hL
    cases fuel2 with
    | zero => rfl
    | succ j =>
      have := hpos p
      simp only [fitting]
      rw [if_neg (by omega)]
  | succ k ih =>
    cases fuel2 with
    | zero =>
      have hL : L = 0 := by omega
      subst hL
      have := hpos p
      simp only [fitting]
      rw [if_neg (by omega)]
    | succ j =>
      have := hpos p
      simp only [fitting]
      split_ifs with hc
      · rw [ih j _ _ (by omega) (by omega)]
      · rfl

theorem stream_unfold (insnAt : Nat → cs_insn) (hpos : ∀ p, 1 ≤ (insnAt p).size)
    (p L : Nat) :
    stream insnAt p L =
      if (insnAt p).size ≤ L then
        insnAt p :: stream insnAt (p + (insnAt p).size) (L - (insnAt p).size)
      else [] := by
  have := hpos p
  cases L with
  | zero =>
    rw [if_neg (by omega)]
    rfl
  | succ k =>
    unfold stream
    simp only [fitting]
    split_ifs with hc
    · rw [fitting_fuel insnAt hpos k (k + 1 - (insnAt p).size) _ _ (by omega) (le_refl _)]
    · rfl

theorem stream_split (insnAt : Nat → cs_insn) (hpos : ∀ p, 1 ≤ (insnAt p).size)
    (L : Nat) : ∀ p R, L ≤ R →
      stream insnAt p R =
        stream insnAt p L ++
          stream insnAt (p + totalSize (stream insnAt p L)) (R - totalSize (stream insnAt p L)) := by
  induction L using Nat.strong_induction_on with
  | _ L ih =>
    intro p R hLR
    have hp := hpos p
    rw [stream_unfold insnAt hpos p L]
    split_ifs with hc
    · have hrec := ih (L - (insnAt p).size) (by omega) (p + (insnAt p).size)
        (R - (insnAt p).size) (by omega)
      rw [stream_unfold insnAt hpos p R, if_pos (by omega), hrec]
      simp only [totalSize, List.map_cons, List.sum_cons, List.cons_append]
      have e1 : p + ((insnAt p).size
          + (List.map cs_insn.size (stream insnAt (p + (insnAt p).size) (L - (insnAt p).size))).sum)
          = p + (insnAt p).size
          + (List.map cs_insn.size (stream insnAt (p + (insnAt p).size) (L - (insnAt p).size))).sum := by
        omega
      have e2 : R - ((insnAt p).size
          + (List.map cs_insn.size (stream insnAt (p + (insnAt p).size) (L - (insnAt p).size))).sum)
          = R - (insnAt p).size
          - (List.map cs_insn.size (stream insnAt (p + (insnAt p).size) (L - (insnAt p).size))).sum := by
        omega
      rw [e1, e2]
    · simp [totalSize]

theorem totalSize_stream_le (insnAt : Nat → cs_insn) (hpos : ∀ p, 1 ≤ (insnAt p).size)
    (L : Nat) : ∀ p, totalSize (stream insnAt p L) ≤ L := by
  induction L using Nat.strong_induction_on with
  | _ L ih =>
    intro p
    have hp := hpos p
    rw [stream_unfold insnAt hpos p L]
    split_ifs with hc
    · have := ih (L - (insnAt p).size) (by omega) (p + (insnAt p).size)
      simp only [totalSize, List.map_cons, List.sum_cons] at *
      omega
    · simp [totalSize]

theorem stream_pos (insnAt : Nat → cs_insn) (hpos : ∀ p, 1 ≤ (insnAt p).size)
    (L : Nat) : ∀ p, ∀ i ∈ stream insnAt p L, 1 ≤ i.size := by
  induction L using Nat.strong_induction_on with
  | _ L ih =>
    intro p i hi
    have hp := hpos p
    rw [stream_unfold insnAt hpos p L] at hi
    split_ifs at hi with hc
    · rcases List.mem_cons.mp hi with rfl | h
      · exact hp
      · exact ih (L - (insnAt p).size) (by omega) _ i h
    · simp at hi

theorem convert_append (start a : Nat) (l l' : List cs_insn) (u : Nat) :
    convert start a (l ++ l') u = convert start a l u ++ convert start a l' (usedBytesFrom l u) := by
  induction l generalizing u with
  | nil => rfl
  | cons i rest ih =>
    show toDisassembly start a u i :: convert start a (rest ++ l') (u64 (u + i.size)) = _
    rw [ih]
    rfl

theorem convert_shift (start a : Nat) (l : List cs_insn) (u : Nat)
    (h : a + u + totalSize l < 18446744073709551616) :
    convert start a l u = convert start 0 l (a + u) := by
  induction l generalizing u with
  | nil => rfl
  | cons i rest ih =>
    simp only [totalSize, List.map_cons, List.sum_cons] at h
    have hu : u64 (u + i.size) = u + i.size := by unfold u64; omega
    have hu' : u64 (a + u + i.size) = a + (u + i.size) := by unfold u64; omega
    have ho : start + a + u = start + 0 + (a + u) := by omega
    simp only [convert, hu, hu', toDisassembly, ho]
    rw [ih (u + i.size) (by simp only [totalSize]; omega)]

theorem run_eq_iterate (W : Nat) (env : Env) (n : Nat) :
    run W env n = (step W env)^[n] initial := by
  induction n with
  | zero => rfl
  | succ k ih => rw [run_succ, ih, Function.iterate_succ_apply']

theorem stream_finish (V : Nat) (env : Env) (insnAt : Nat → cs_insn)
    (hlen : ∀ p, 1 ≤ (insnAt p).size ∧ (insnAt p).size ≤ V)
    (hdec : DecodesStream env insnAt)
    (hsize : env.size + V ≤ 18446744073709551616) (d : Nat) :
    ∀ s : LoopState, s.finished = false → s.address ≤ env.size → env.size - s.address = d →
      totalSize (stream insnAt s.address (env.size - s.address)) = env.size - s.address →
      ∃ k, ((step V env)^[k] s).finished = true ∧
        ((step V env)^[k] s).m_disassembly =
          s.m_disassembly ++
            convert env.startAddress 0 (stream insnAt s.address (env.size - s.address))
              s.address := by
  induction d using Nat.strong_induction_on with
  | _ d ih =>
    intro s hf hle hd htile
    have hpos : ∀ p, 1 ≤ (insnAt p).size := fun p => (hlen p).1
    by_cases ha : s.address < env.size
    · have hb : bufferSize V env s.address = min V (env.size - s.address) := rfl
      have hi : instructionsAt V env s.address
          = stream insnAt s.address (bufferSize V env s.address) := by
        unfold instructionsAt chunk
        exact hdec s.address _ (by omega)
      have ht := totalSize_stream_le insnAt hpos (bufferSize V env s.address) s.address
      have hsplit := stream_split insnAt hpos (bufferSize V env s.address) s.address
        (env.size - s.address) (by omega)
      have hxpos := stream_pos insnAt hpos (bufferSize V env s.address) s.address
      have hne : stream insnAt s.address (bufferSize V env s.address) ≠ [] := by
        by_cases hfull : V ≤ env.size - s.address
        · have hbV : bufferSize V env s.address = V := by omega
          rw [hbV, stream_unfold insnAt hpos, if_pos (hlen s.address).2]
          simp
        · have hbV : bufferSize V env s.address = env.size - s.address := by omega
          intro h0
          rw [hbV] at h0
          rw [h0] at htile
          simp only [totalSize, List.map_nil, List.sum_nil] at htile
          omega
      have hcount := length_le_totalSize _ hxpos
      have hlenpos : 1 ≤ (stream insnAt s.address (bufferSize V env s.address)).length :=
        List.length_pos.mpr hne
      have hnext := nextAddress_eq V env s.address ha hsize (by rw [hi]; exact hxpos)
        (by rw [hi]; exact ht)
      rw [hi] at hnext
      have hs' := step_body V env s hf ha (by rw [hi]; exact hne)
      rw [hi] at hs'
      have hrows : (step V env s).m_disassembly = s.m_disassembly ++
          convert env.startAddress 0 (stream insnAt s.address (bufferSize V env s.address))
            s.address := by
        rw [hs']
        show s.m_disassembly ++ convert env.startAddress s.address _ 0 = _
        rw [convert_shift env.startAddress s.address _ 0 (by omega)]
        rfl
      have hfin' : (step V env s).finished = false := by rw [hs']; exact hf
      have haddr : (step V env s).address = s.address
          + totalSize (stream insnAt s.address (bufferSize V env s.address))
          + (V - bufferSize V env s.address) := by
        rw [hs']; exact hnext
      by_cases hfull : V ≤ env.size - s.address
      · have hbV : bufferSize V env s.address = V := by omega
        rw [hbV] at hsplit ht hcount hlenpos hrows haddr
        have haddr' : (step V env s).address
            = s.address + totalSize (stream insnAt s.address V) := by omega
        have htile' : totalSize (stream insnAt (s.address + totalSize (stream insnAt s.address V))
            (env.size - (s.address + totalSize (stream insnAt s.address V))))
            = env.size - (s.address + totalSize (stream insnAt s.address V)) := by
          rw [hsplit, totalSize_append, Nat.sub_sub] at htile
          omega
        obtain ⟨k, hk1, hk2⟩ := ih (env.size - (step V env s).address) (by omega)
          (step V env s) hfin' (by omega) rfl (by rw [haddr']; exact htile')
        refine ⟨k + 1, ?_, ?_⟩
        · rw [Function.iterate_succ_apply]
          exact hk1
        · rw [Function.iterate_succ_apply, hk2, hrows, haddr', hsplit, convert_append,
            usedBytesFrom_eq _ _ (by omega), List.append_assoc, Nat.sub_sub]
      · have hbV : bufferSize V env s.address = env.size - s.address := by omega
        rw [hbV] at hrows haddr
        have hexit := step_exit V env (step V env s) hfin' (by omega)
        refine ⟨2, ?_, ?_⟩
        · show (step V env (step V env s)).finished = true
          rw [hexit]
        · show (step V env (step V env s)).m_disassembly = _
          rw [hexit]
          exact hrows
    · have hexit := step_exit V env s hf ha
      have h0 : env.size - s.address = 0 := by omega
      refine ⟨1, ?_, ?_⟩
      · show (step V env s).finished = true
        rw [hexit]
      · show (step V env s).m_disassembly = _
        rw [hexit, h0]
        show s.m_disassembly = s.m_disassembly ++ []
        simp

theorem stream_result (V : Nat) (env : Env) (insnAt : Nat → cs_insn)
    (hlen : ∀ p, 1 ≤ (insnAt p).size ∧ (insnAt p).size ≤ V)
    (hdec : DecodesStream env insnAt)
    (hsize : env.size + V ≤ 18446744073709551616)
    (htile : totalSize (stream insnAt 0 env.size) = env.size) :
    ∃ k, (run V env k).finished = true ∧
      (run V env k).m_disassembly
        = convert env.startAddress 0 (stream insnAt 0 env.size) 0 := by
  obtain ⟨k, h1, h2⟩ := stream_finish V env insnAt hlen hdec hsize env.size initial rfl
    (Nat.zero_le _) rfl htile
  refine ⟨k, ?_, ?_⟩
  · rw [run_eq_iterate]
    exact h1
  · rw [run_eq_iterate, h2]
    rfl

theorem streamInsnAt_size (p : Nat) :
    1 ≤ (streamInsnAt p).size ∧ (streamInsnAt p).size ≤ 3 := by
  show 1 ≤ insnLength _ ∧ insnLength _ ≤ 3
  unfold insnLength
  split_ifs <;> omega

theorem decodesStream_streamEnv : DecodesStream streamEnv streamInsnAt := by
  intro a L h
  have hs : streamEnv.size = 10 := rfl
  rw [hs] at h
  have ha : a ≤ 10 := by omega
  have hL : L ≤ 10 := by omega
  interval_cases a <;> interval_cases L <;> first | (exfalso; omega) | decide

/-- C2, as amended: let the decoder be a stream decoder for the region (at every position
of the region starts one instruction of 1 to `W` bytes, and on every chunk the decoder
returns the instructions that the chunk holds completely, front to back), let the region end
on an instruction boundary and have at most `2 ^ 64 - 2 W` bytes.  Then the loop with window
`W` and the loop with window `2 W` both terminate, and their result sequences are identical
row by row: both are the rows of the instruction stream of the whole region. -/
theorem window_independent_for_streams (W : Nat) (env : Env) (insnAt : Nat → cs_insn)
    (hlen : ∀ p, 1 ≤ (insnAt p).size ∧ (insnAt p).size ≤ W)
    (hdec : DecodesStream env insnAt)
    (hsize : env.size + 2 * W ≤ 18446744073709551616)
    (htile : totalSize (stream insnAt 0 env.size) = env.size) :
    ∃ n, (run W env n).finished = true ∧ (run (2 * W) env n).finished = true ∧
      (run W env n).m_disassembly = (run (2 * W) env n).m_disassembly ∧
      (run W env n).m_disassembly
        = convert env.startAddress 0 (stream insnAt 0 env.size) 0 := by
  obtain ⟨k1, hf1, hr1⟩ := stream_result W env insnAt hlen hdec (by omega) htile
  obtain ⟨k2, hf2, hr2⟩ := stream_result (2 * W) env insnAt
    (fun p => ⟨(hlen p).1, by have := (hlen p).2; omega⟩) hdec hsize htile
  have e1 := run_stable W env k1 hf1 (max k1 k2) (le_max_left _ _)
  have e2 := run_stable (2 * W) env k2 hf2 (max k1 k2) (le_max_right _ _)
  refine ⟨max k1 k2, ?_, ?_, ?_, ?_⟩
  · rw [e1]; exact hf1
  · rw [e2]; exact hf2
  · rw [e1, e2, hr1, hr2]
  · rw [e1, hr1]

/-- Witness for C2: the region `{16, 10}` holding `1 3 7 7 1 1 3 7 7 1` with the plain
decoder of the toy instruction set, windows of 3 and of 6 bytes. -/
theorem window_independent_for_streams_witness :
    ∃ n, (run 3 streamEnv n).finished = true ∧ (run (2 * 3) streamEnv n).finished = true ∧
      (run 3 streamEnv n).m_disassembly = (run (2 * 3) streamEnv n).m_disassembly ∧
      (run 3 streamEnv n).m_disassembly
        = convert streamEnv.startAddress 0 (stream streamInsnAt 0 streamEnv.size) 0 :=
  window_independent_for_streams 3 streamEnv streamInsnAt streamInsnAt_size
    decodesStream_streamEnv (by decide) (by decide)

/-- Counterexample to C2 as stated (every deterministic decoder, every region), with
`W = 2`.  First, a decoder in the manner of `CS_OPT_SKIPDATA` on the bytes `1 3 1 1`: with
window 2 the three-byte instruction at offset 1 is cut by the chunk boundary and four
one-byte rows result, with window 4 it is decoded whole and two rows result.  Second, the
plain decoder on the region `1 3 1`, which ends inside an instruction: with window 2 the
second iteration stalls at offset 1 and one row results, with window 4 the short chunk is
left at `address = 2` and a second row at offset 2 results. -/
theorem window_dependence :
    (run 2 skipDataEnv 3).finished = true ∧ (run (2 * 2) skipDataEnv 3).finished = true ∧
    (run 2 skipDataEnv 3).m_disassembly.map triple
      = [(0, 0, 1), (1, 1, 1), (2, 2, 1), (3, 3, 1)] ∧
    (run (2 * 2) skipDataEnv 3).m_disassembly.map triple = [(0, 0, 1), (1, 1, 3)] ∧
    (run 2 truncatedEnv 3).finished = true ∧ (run (2 * 2) truncatedEnv 3).finished = true ∧
    (run 2 truncatedEnv 3).m_disassembly.map triple = [(0, 0, 1)] ∧
    (run (2 * 2) truncatedEnv 3).m_disassembly.map triple = [(0, 0, 1), (2, 2, 1)] := by
  decide

/-! ## Cancellation, progress values, read bounds and the guard of the rewind -/

theorem step_extends_rows (W : Nat) (env : Env) (s : LoopState) :
    s.m_disassembly <+: (step W env s).m_disassembly := by
  refine step_induction W env (fun t => s.m_disassembly <+: t.m_disassembly) s
    (List.prefix_refl _) (List.prefix_refl _) (fun _ => List.prefix_refl _) ?_
  intro _ _
  exact List.prefix_append _ _

theorem run_extends_rows (W : Nat) (env : Env) (n k : Nat) :
    (run W env n).m_disassembly <+: (run W env (n + k)).m_disassembly := by
  induction k with
  | zero => exact List.prefix_refl _
  | succ j ih => exact ih.trans (step_extends_rows W env _)

theorem convert_complete (start a : Nat) (l : List cs_insn) (u : Nat) :
    ∀ d ∈ convert start a l u, ∃ u' i, i ∈ l ∧ d = toDisassembly start a u' i := by
  induction l generalizing u with
  | nil => simp [convert]
  | cons i rest ih =>
    intro d hd
    simp only [convert, List.mem_cons] at hd
    rcases hd with rfl | hd
    · exact ⟨u, i, by simp, rfl⟩
    · obtain ⟨u', j, hj, hd'⟩ := ih _ d hd
      exact ⟨u', j, by simp [hj], hd'⟩

theorem rows_complete (W : Nat) (env : Env) (n : Nat) :
    ∀ d ∈ (run W env n).m_disassembly,
      ∃ a u i, d = toDisassembly env.startAddress a u i := by
  refine run_invariant W env
    (fun s => ∀ d ∈ s.m_disassembly, ∃ a u i, d = toDisassembly env.startAddress a u i)
    (by simp [initial]) ?_ n
  intro s hs
  refine step_induction W env
    (fun t => ∀ d ∈ t.m_disassembly, ∃ a u i, d = toDisassembly env.startAddress a u i)
    s hs hs (fun _ => hs) ?_
  intro _ _ d hd
  rcases List.mem_append.mp hd with h | h
  · exact hs d h
  · obtain ⟨u', i, _, hd'⟩ := convert_complete _ _ _ _ d h
    exact ⟨s.address, u', i, hd'⟩

/-- C11: if the loop is stopped at the `task.update` call that opens an iteration, i.e.
after any number `n` of completed evaluations of the loop head, the result sequence held at
that point is a prefix of the sequence the run holds after any `k` further evaluations (in
particular of the final one): the later sequence starts with exactly the same rows at the
same indices, and every row is a whole record built from one instruction of the decoder
(address, offset, size, bytes, mnemonic and operands all set by `toDisassembly`). -/
theorem cancellation_keeps_rows (env : Env) (n k : Nat) :
    (run 2048 env n).m_disassembly <+: (run 2048 env (n + k)).m_disassembly ∧
    (run 2048 env (n + k)).m_disassembly.take (run 2048 env n).m_disassembly.length
      = (run 2048 env n).m_disassembly ∧
    (∀ d ∈ (run 2048 env n).m_disassembly,
      ∃ a u i, d = toDisassembly env.startAddress a u i) := by
  have h := run_extends_rows 2048 env n k
  refine ⟨h, ?_, rows_complete 2048 env n⟩
  obtain ⟨t, ht⟩ := h
  rw [← ht]
  simp

theorem updates_are_addresses (W : Nat) (env : Env) (n : Nat) :
    (run W env n).updates
        = (List.range (run W env n).updates.length).map (fun k => (run W env k).address) ∧
      (run W env n).updates.length ≤ n ∧
      ((run W env n).finished = false → (run W env n).updates.length = n) := by
  induction n with
  | zero => exact ⟨rfl, le_refl _, fun _ => rfl⟩
  | succ m ih =>
    obtain ⟨h1, h2, h3⟩ := ih
    rw [run_succ]
    by_cases hf : (run W env m).finished = true
    · rw [step_of_finished W env _ hf]
      exact ⟨h1, by omega, fun h => by rw [hf] at h; cases h⟩
    · have hf' : (run W env m).finished = false := by simpa using hf
      have hlen := h3 hf'
      by_cases ha : (run W env m).address < env.size
      · have hu := step_updates W env _ hf' ha
        have hl : (step W env (run W env m)).updates.length = m + 1 := by
          rw [hu]; simp [hlen]
        refine ⟨?_, by omega, fun _ => hl⟩
        have h1' := h1
        rw [hlen] at h1'
        rw [hl, List.range_succ, List.map_append, hu, ← h1']
        rfl
      · rw [step_exit W env _ hf' ha]
        exact ⟨h1, by show (run W env m).updates.length ≤ m + 1; omega,
          fun h => by cases h⟩

theorem reads_invariant (W : Nat) (env : Env) (n : Nat) :
    ∀ r ∈ (run W env n).reads,
      ∃ a, a < env.size ∧ r = (u64 (env.startAddress + a), bufferSize W env a) := by
  refine run_invariant W env
    (fun s => ∀ r ∈ s.reads,
      ∃ a, a < env.size ∧ r = (u64 (env.startAddress + a), bufferSize W env a))
    (by simp [initial]) ?_ n
  intro s hs
  have hadd : s.address < env.size →
      ∀ r ∈ s.reads ++ [(u64 (env.startAddress + s.address), bufferSize W env s.address)],
        ∃ a, a < env.size ∧ r = (u64 (env.startAddress + a), bufferSize W env a) := by
    intro ha r hr
    rcases List.mem_append.mp hr with h | h
    · exact hs r h
    · exact ⟨s.address, ha, List.mem_singleton.mp h⟩
  exact step_induction W env
    (fun t => ∀ r ∈ t.reads,
      ∃ a, a < env.size ∧ r = (u64 (env.startAddress + a), bufferSize W env a))
    s hs hs hadd (fun ha _ => hadd ha)

/-- C19: every read the loop makes, for every region and every decoder, has a length between
1 and 2048 (the capacity of the buffer) and covers the bytes `[a, a + length)` of the region
for some relative address `a` with `a + length <= size`; when the region does not wrap
around the 64-bit offsets, the absolute offset passed to `provider->read` is
`startAddress + a`, so that the range read lies inside
`[startAddress, startAddress + size)`. -/
theorem read_bounds (env : Env) (n : Nat) (r : Nat × Nat)
    (hr : r ∈ (run 2048 env n).reads) :
    1 ≤ r.2 ∧ r.2 ≤ 2048 ∧
    ∃ a, a < env.size ∧ r.1 = u64 (env.startAddress + a) ∧ a + r.2 ≤ env.size ∧
      (env.startAddress + env.size ≤ 18446744073709551616 →
        env.startAddress ≤ r.1 ∧ r.1 + r.2 ≤ env.startAddress + env.size) := by
  obtain ⟨a, ha, rfl⟩ := reads_invariant 2048 env n r hr
  have hb : bufferSize 2048 env a = min 2048 (env.size - a) := rfl
  refine ⟨by show 1 ≤ bufferSize 2048 env a; omega,
    by show bufferSize 2048 env a ≤ 2048; omega, a, ha, rfl,
    by show a + bufferSize 2048 env a ≤ env.size; omega, ?_⟩
  intro hregion
  show env.startAddress ≤ u64 (env.startAddress + a) ∧
    u64 (env.startAddress + a) + bufferSize 2048 env a ≤ env.startAddress + env.size
  unfold u64
  omega

/-- Witness for C19: the only read on the region `{4096, 8}` is the read of 8 bytes at
offset 4096. -/
theorem read_bounds_witness :
    ((4096, 8) : Nat × Nat) ∈ (run 2048 tinyEnv 1).reads ∧
    1 ≤ ((4096, 8) : Nat × Nat).2 ∧ ((4096, 8) : Nat × Nat).2 ≤ 2048 ∧
    ∃ a, a < tinyEnv.size ∧ ((4096, 8) : Nat × Nat).1 = u64 (tinyEnv.startAddress + a) ∧
      a + ((4096, 8) : Nat × Nat).2 ≤ tinyEnv.size ∧
      (tinyEnv.startAddress + tinyEnv.size ≤ 18446744073709551616 →
        tinyEnv.startAddress ≤ ((4096, 8) : Nat × Nat).1 ∧
        ((4096, 8) : Nat × Nat).1 + ((4096, 8) : Nat × Nat).2
          ≤ tinyEnv.startAddress + tinyEnv.size) :=
  ⟨by decide, read_bounds tinyEnv 1 (4096, 8) (by decide)⟩

theorem nextAddress_eq_rule (W : Nat) (env : Env) (a : Nat)
    (hW : W < 18446744073709551616)
    (hpos : ∀ i ∈ instructionsAt W env a, 1 ≤ i.size)
    (hle : totalSize (instructionsAt W env a) ≤ bufferSize W env a) :
    nextAddress W env a = ruleNextAddress W env a := by
  have hb : bufferSize W env a ≤ W := by unfold bufferSize; omega
  have hused := usedBytes_eq (instructionsAt W env a) (by omega)
  have hcount := length_le_totalSize _ hpos
  unfold nextAddress ruleNextAddress adjusted ruleAdjusted
  rw [hused]
  split_ifs with h1 h2 h2
  · rfl
  · unfold u64sub u64
    omega
  · omega
  · rfl

theorem decodesWithin_fixedWidthDecoder : DecodesWithin fixedWidthDecoder := by
  intro buffer address
  refine ⟨?_, ?_⟩
  · intro i hi
    simp only [fixedWidthDecoder, List.mem_map] at hi
    obtain ⟨k, _, rfl⟩ := hi
    show 1 ≤ 4
    omega
  · rw [totalSize_fixedWidthDecoder]
    omega

/-- C20: whenever the instructions returned for a chunk have at least one byte each and
cover at most `bufferSize` bytes, the next value of `address` computed by the code (guard
`instructionCount < bufferSize`) equals the one computed by the rule "if
`usedBytes < bufferSize` then rewind by `bufferSize - usedBytes`", both followed by
`+= 2048` and evaluated modulo `2 ^ 64`, for every value of `address`. -/
theorem guard_equivalence (env : Env) (a : Nat)
    (hpos : ∀ i ∈ instructionsAt 2048 env a, 1 ≤ i.size)
    (hle : totalSize (instructionsAt 2048 env a) ≤ bufferSize 2048 env a) :
    nextAddress 2048 env a = ruleNextAddress 2048 env a :=
  nextAddress_eq_rule 2048 env a (by omega) hpos hle

/-- Witness for C20: the region `{0, 2047}` with the fixed-width decoder at `address = 0`,
where 2044 of 2047 bytes are consumed and the rewind by 3 wraps below zero. -/
theorem guard_equivalence_witness :
    nextAddress 2048 shortEnv 0 = ruleNextAddress 2048 shortEnv 0 :=
  guard_equivalence shortEnv 0
    (decodesWithin_at 2048 shortEnv 0 decodesWithin_fixedWidthDecoder).1
    (decodesWithin_at 2048 shortEnv 0 decodesWithin_fixedWidthDecoder).2

/-! ## The mode passed to capstone -/

/-- C15, evaluated on the code: for every architecture and every state of the other
settings the value assigned to `m_mode`, which is the mode passed to `cs_open`, is the same
whether `big endian` or `little endian` is selected; for ARM with the initial settings it is
`0` in both cases, and the bit `CS_MODE_BIG_ENDIAN` is never set by the selection. -/
theorem endianness_ignored (c : ModeConstants) (architecture : Architecture) (s : Settings) :
    m_mode c architecture { s with littleEndian := false }
      = m_mode c architecture { s with littleEndian := true } ∧
    m_mode capstone5 Architecture.ARM (defaultSettings false) = 0 ∧
    m_mode capstone5 Architecture.ARM (defaultSettings true) = 0 := by
  refine ⟨?_, by decide, by decide⟩
  cases architecture <;> rfl

theorem mips_flag (mode : MipsMode) (micro : Bool) :
    ((mode.value capstone5 ||| (if micro then capstone5.CS_MODE_MICRO else 0))
      &&& capstone5.CS_MODE_MICRO ≠ 0) ↔ micro = true := by
  cases mode <;> cases micro <;> decide

theorem ppc_flags (mode : WordMode) (qpx spe booke : Bool) :
    (((mode.ppcValue capstone5 ||| (if qpx then capstone5.CS_MODE_QPX else 0)
        ||| (if spe then capstone5.CS_MODE_SPE else 0)
        ||| (if booke then capstone5.CS_MODE_BOOKE else 0))
      &&& capstone5.CS_MODE_QPX ≠ 0) ↔ qpx = true) ∧
    (((mode.ppcValue capstone5 ||| (if qpx then capstone5.CS_MODE_QPX else 0)
        ||| (if spe then capstone5.CS_MODE_SPE else 0)
        ||| (if booke then capstone5.CS_MODE_BOOKE else 0))
      &&& capstone5.CS_MODE_SPE ≠ 0) ↔ spe = true) ∧
    (((mode.ppcValue capstone5 ||| (if qpx then capstone5.CS_MODE_QPX else 0)
        ||| (if spe then capstone5.CS_MODE_SPE else 0)
        ||| (if booke then capstone5.CS_MODE_BOOKE else 0))
      &&& capstone5.CS_MODE_BOOKE ≠ 0) ↔ booke = true) := by
  cases mode <;> cases qpx <;> cases spe <;> cases booke <;> decide

theorem sparc_flag (v9 : Bool) :
    ((if v9 then capstone5.CS_MODE_V9 else 0) &&& capstone5.CS_MODE_V9 ≠ 0) ↔ v9 = true := by
  cases v9 <;> decide

theorem riscv_flag (mode : WordMode) (compressed : Bool) :
    ((mode.riscvValue capstone5 ||| (if compressed then capstone5.CS_MODE_RISCVC else 0))
      &&& capstone5.CS_MODE_RISCVC ≠ 0) ↔ compressed = true := by
  cases mode <;> cases compressed <;> decide

theorem sh_flags : ∀ (selection : Fin 5) (fpu dsp : Bool),
    ((((shModes capstone5).getD selection.val 0
        ||| (if fpu then capstone5.CS_MODE_SHFPU else 0)
        ||| (if dsp then capstone5.CS_MODE_SHDSP else 0))
      &&& capstone5.CS_MODE_SHFPU ≠ 0) ↔ fpu = true) ∧
    ((((shModes capstone5).getD selection.val 0
        ||| (if fpu then capstone5.CS_MODE_SHFPU else 0)
        ||| (if dsp then capstone5.CS_MODE_SHDSP else 0))
      &&& capstone5.CS_MODE_SHDSP ≠ 0) ↔ dsp = true) := by
  decide

theorem composeMode_one (primary : Nat) (b : Bool) (v : Nat) :
    primary ||| (if b then v else 0) = composeMode primary [(b, v)] := by
  cases b <;> simp [composeMode]

theorem composeMode_two (primary : Nat) (b1 b2 : Bool) (v1 v2 : Nat) :
    primary ||| (if b1 then v1 else 0) ||| (if b2 then v2 else 0)
      = composeMode primary [(b1, v1), (b2, v2)] := by
  cases b1 <;> cases b2 <;> simp [composeMode]

theorem composeMode_three (primary : Nat) (b1 b2 b3 : Bool) (v1 v2 v3 : Nat) :
    primary ||| (if b1 then v1 else 0) ||| (if b2 then v2 else 0) ||| (if b3 then v3 else 0)
      = composeMode primary [(b1, v1), (b2, v2), (b3, v3)] := by
  cases b1 <;> cases b2 <;> cases b3 <;> simp [composeMode]

/-- C16: for every state of the settings, the value assigned to `m_mode` for MIPS, PPC,
SPARC, RISCV and SH is the selected primary mode or-ed with the constants of exactly the
enabled check boxes (for any values of the constants); with the values of capstone 5 the bit
of each feature flag is set in `m_mode` if and only if its check box is enabled, whatever
the primary mode and the other check boxes are; and for ARM64, EVM, TMS320C64X, SYSZ, XCORE
and WASM `m_mode` is `0`. -/
theorem mode_composition (c : ModeConstants) (s : Settings) :
    m_mode c Architecture.MIPS s
      = composeMode (s.mipsMode.value c) [(s.microMode, c.CS_MODE_MICRO)] ∧
    m_mode c Architecture.PPC s
      = composeMode (s.ppcMode.ppcValue c)
          [(s.qpx, c.CS_MODE_QPX), (s.spe, c.CS_MODE_SPE), (s.booke, c.CS_MODE_BOOKE)] ∧
    m_mode c Architecture.SPARC s = composeMode 0 [(s.v9Mode, c.CS_MODE_V9)] ∧
    m_mode c Architecture.RISCV s
      = composeMode (s.riscvMode.riscvValue c) [(s.compressed, c.CS_MODE_RISCVC)] ∧
    m_mode c Architecture.SH s
      = composeMode ((shModes c).getD s.shSelectionMode.val 0)
          [(s.fpu, c.CS_MODE_SHFPU), (s.dsp, c.CS_MODE_SHDSP)] ∧
    ((m_mode capstone5 Architecture.MIPS s &&& capstone5.CS_MODE_MICRO ≠ 0)
      ↔ s.microMode = true) ∧
    ((m_mode capstone5 Architecture.PPC s &&& capstone5.CS_MODE_QPX ≠ 0) ↔ s.qpx = true) ∧
    ((m_mode capstone5 Architecture.PPC s &&& capstone5.CS_MODE_SPE ≠ 0) ↔ s.spe = true) ∧
    ((m_mode capstone5 Architecture.PPC s &&& capstone5.CS_MODE_BOOKE ≠ 0)
      ↔ s.booke = true) ∧
    ((m_mode capstone5 Architecture.SPARC s &&& capstone5.CS_MODE_V9 ≠ 0)
      ↔ s.v9Mode = true) ∧
    ((m_mode capstone5 Architecture.RISCV s &&& capstone5.CS_MODE_RISCVC ≠ 0)
      ↔ s.compressed = true) ∧
    ((m_mode capstone5 Architecture.SH s &&& capstone5.CS_MODE_SHFPU ≠ 0) ↔ s.fpu = true) ∧
    ((m_mode capstone5 Architecture.SH s &&& capstone5.CS_MODE_SHDSP ≠ 0) ↔ s.dsp = true) ∧
    m_mode c Architecture.ARM64 s = 0 ∧ m_mode c Architecture.EVM s = 0 ∧
    m_mode c Architecture.TMS320C64X s = 0 ∧ m_mode c Architecture.SYSZ s = 0 ∧
    m_mode c Architecture.XCORE s = 0 ∧ m_mode c Architecture.WASM s = 0 := by
  refine ⟨composeMode_one _ _ _, composeMode_three _ _ _ _ _ _ _, ?_, composeMode_one _ _ _,
    composeMode_two _ _ _ _ _, mips_flag _ _, (ppc_flags _ _ _ _).1, (ppc_flags _ _ _ _).2.1,
    (ppc_flags _ _ _ _).2.2, sparc_flag _, riscv_flag _ _, (sh_flags _ _ _).1,
    (sh_flags _ _ _).2, rfl, rfl, rfl, rfl, rfl, rfl⟩
  have h := composeMode_one 0 s.v9Mode c.CS_MODE_V9
  rw [← h]
  show (if s.v9Mode then c.CS_MODE_V9 else 0) = _
  simp

/-! ## Failure of `cs_open`, fresh results, and the hexdump range -/

/-- C12, as amended: when `cs_open` does not return success, `disassemble` reports nothing:
the task is created as in every run, its body makes no progress update, no read and no call
of the decoder, and it ends with an empty result sequence. -/
theorem rejected_configuration_is_silent
    (cs_open : Architecture → Nat → Option (List Nat → Nat → List cs_insn))
    (provider : Nat → Nat) (view : View) (n : Nat)
    (hreject : cs_open view.m_architecture view.m_mode = none) :
    (disassemble cs_open provider view n).taskCreated = true ∧
    (disassemble cs_open provider view n).body.m_disassembly = [] ∧
    (disassemble cs_open provider view n).body.updates = [] ∧
    (disassemble cs_open provider view n).body.reads = [] ∧
    (disassemble cs_open provider view n).body.decodes = [] ∧
    (disassemble cs_open provider view n).body.finished = true := by
  simp [disassemble, hreject, clear, initial]

/-- Witness for C12: the rejecting capstone on the view of the region `{16, 5000}`. -/
theorem rejected_configuration_is_silent_witness :
    (disassemble rejecting (fun i => i % 256) staleView 3).taskCreated = true ∧
    (disassemble rejecting (fun i => i % 256) staleView 3).body.m_disassembly = [] ∧
    (disassemble rejecting (fun i => i % 256) staleView 3).body.updates = [] ∧
    (disassemble rejecting (fun i => i % 256) staleView 3).body.reads = [] ∧
    (disassemble rejecting (fun i => i % 256) staleView 3).body.decodes = [] ∧
    (disassemble rejecting (fun i => i % 256) staleView 3).body.finished = true :=
  rejected_configuration_is_silent rejecting (fun i => i % 256) staleView 3 rfl

/-- Counterexample to C12 as stated: with a capstone that rejects the configuration the task
is created all the same; on the empty region the outcome is equal in every component to that
of an accepted configuration, and on the region `{16, 5000}` the result sequence and the
end of the task are those of an accepted configuration whose decoder decodes nothing. -/
theorem rejected_configuration_creates_task :
    (disassemble rejecting (fun _ => 0) emptyView 1).taskCreated = true ∧
    disassemble rejecting (fun _ => 0) emptyView 1
      = disassemble (accepting threeByteDecoder) (fun _ => 0) emptyView 1 ∧
    (disassemble rejecting (fun i => i % 256) staleView 1).taskCreated
      = (disassemble (accepting stalledDecoder) (fun i => i % 256) staleView 1).taskCreated ∧
    (disassemble rejecting (fun i => i % 256) staleView 1).body.m_disassembly
      = (disassemble (accepting stalledDecoder) (fun i => i % 256) staleView 1).body.m_disassembly ∧
    (disassemble rejecting (fun i => i % 256) staleView 1).body.finished
      = (disassemble (accepting stalledDecoder) (fun i => i % 256) staleView 1).body.finished := by
  decide

/-- C17: whatever `m_disassembly` held before, `disassemble` yields the outcome it yields
from an empty `m_disassembly`; when `cs_open` succeeds the state of the task body is that of
the loop started from the empty sequence, so that the result sequence is a function of the
region, the base address, the data and the decoder alone. -/
theorem fresh_result_per_run
    (cs_open : Architecture → Nat → Option (List Nat → Nat → List cs_insn))
    (provider : Nat → Nat) (view : View) (previous : List Disassembly) (n : Nat) :
    disassemble cs_open provider { view with m_disassembly := previous } n
      = disassemble cs_open provider { view with m_disassembly := [] } n ∧
    ∀ handle, cs_open view.m_architecture view.m_mode = some handle →
      (disassemble cs_open provider { view with m_disassembly := previous } n).body
        = run 2048
            { startAddress := view.startAddress, size := view.size,
              baseAddress := view.m_baseAddress, provider := provider,
              cs_disasm := handle } n := by
  refine ⟨rfl, ?_⟩
  intro handle h
  simp only [disassemble, h, run_eq_iterate]
  rfl

/-- C18, evaluated where it fails: for a file of 100 bytes, `--hexdump file 10 5` passes the
length `5 - 10`, wrapped to `2 ^ 64 - 5`, and `--hexdump file 10 20` passes the length `10`:
the third argument is used as an end offset, not as a size; only with offset `0` is the
length `min(size, n)`. -/
theorem hexdump_length_is_end_minus_offset :
    handleHexdumpCommand 100 [10, 5] = (10, 18446744073709551611) ∧
    handleHexdumpCommand 100 [10, 20] = (10, 10) ∧
    handleHexdumpCommand 100 [0, 20] = (0, 20) ∧
    handleHexdumpCommand 100 [10] = (10, 90) := by
  decide

/-! ## The text of the bytes -/

set_option maxRecDepth 20000 in
theorem formatByte_eq_spec : ∀ b, b < 256 → formatByte b = specHexByte b ++ [' '] := by
  decide

set_option maxRecDepth 20000 in
theorem specHexByte_facts : ∀ b, b < 256 →
    parseHexToken (specHexByte b) = b ∧ ' ' ∉ specHexByte b ∧ (specHexByte b).length = 2 := by
  decide

theorem flatMap_range_getD (f : Nat → List Char) (l : List Nat) :
    (List.range l.length).flatMap (fun j => f (l.getD j 0)) = l.flatMap f := by
  induction l with
  | nil => rfl
  | cons b rest ih =>
    rw [List.length_cons, List.range_succ_eq_map, List.flatMap_cons, List.flatMap_map]
    simp only [List.getD_cons_zero, List.getD_cons_succ, List.flatMap_cons]
    rw [ih]

theorem flatMap_formatByte (l : List Nat) (h : ∀ b ∈ l, b < 256) :
    l.flatMap formatByte = l.flatMap (fun b => specHexByte b ++ [' ']) := by
  induction l with
  | nil => rfl
  | cons b rest ih =>
    rw [List.flatMap_cons, List.flatMap_cons, formatByte_eq_spec b (h b (by simp)),
      ih (fun c hc => h c (by simp [hc]))]

theorem dropLast_flatMap_blank (g : Nat → List Char) (l : List Nat) (hl : l ≠ []) :
    (l.flatMap (fun b => g b ++ [' '])).dropLast = [' '].intercalate (l.map g) := by
  induction l with
  | nil => exact absurd rfl hl
  | cons b rest ih =>
    cases rest with
    | nil => simp [List.intercalate, List.dropLast_concat]
    | cons b' rest' =>
      have hne : (b' :: rest').flatMap (fun b => g b ++ [' ']) ≠ [] := by
        simp [List.flatMap_cons]
      rw [List.flatMap_cons, List.dropLast_append_of_ne_nil _ hne, ih (by simp)]
      simp [List.intercalate, List.intersperse]

theorem length_flatMap_formatByte (l : List Nat) :
    (l.flatMap formatByte).length = 3 * l.length := by
  induction l with
  | nil => rfl
  | cons b rest ih =>
    rw [List.flatMap_cons, List.length_append, ih, List.length_cons]
    simp only [formatByte, List.length_cons, List.length_nil]
    omega

theorem renderBytes_eq (instr : cs_insn) (hlen : instr.bytes.length = instr.size) :
    (renderBytes instr).data = (instr.bytes.flatMap formatByte).dropLast := by
  unfold renderBytes
  rw [← hlen, flatMap_range_getD]

/-- C14: for an instruction of `n >= 1` bytes, each below 256, the text stored in `bytes`
is the two-digit, zero-padded, upper-case hexadecimal renderings of the bytes joined by
single blanks; it has `3 n - 1` characters, and splitting it at the blanks and reading every
token as a hexadecimal number gives the bytes back. -/
theorem bytes_text (start a u : Nat) (instr : cs_insn) (hn : 1 ≤ instr.size)
    (hlen : instr.bytes.length = instr.size) (hb : ∀ b ∈ instr.bytes, b < 256) :
    (toDisassembly start a u instr).bytes = specBytesText instr.bytes ∧
    (toDisassembly start a u instr).bytes.length = 3 * instr.size - 1 ∧
    parseBytesText (toDisassembly start a u instr).bytes = instr.bytes := by
  have hne : instr.bytes ≠ [] := by
    intro h
    rw [h] at hlen
    simp at hlen
    omega
  have hdata := renderBytes_eq instr hlen
  have htext : renderBytes instr = specBytesText instr.bytes := by
    have : renderBytes instr = String.mk (renderBytes instr).data := rfl
    rw [this, hdata, flatMap_formatByte _ hb, dropLast_flatMap_blank specHexByte _ hne]
    rfl
  refine ⟨htext, ?_, ?_⟩
  · show (renderBytes instr).data.length = _
    rw [hdata, List.length_dropLast, length_flatMap_formatByte, hlen]
  · show parseBytesText (renderBytes instr) = _
    rw [htext]
    show (([' '].intercalate (instr.bytes.map specHexByte)).splitOn ' ').map parseHexToken = _
    rw [List.splitOn_intercalate _ ' ' ?_ (by simpa using hne)]
    · rw [List.map_map]
      conv_rhs => rw [← List.map_id instr.bytes]
      refine List.map_congr_left ?_
      intro b hb'
      exact (specHexByte_facts b (hb b hb')).1
    · intro t ht
      obtain ⟨b, hb', rfl⟩ := List.mem_map.mp ht
      exact (specHexByte_facts b (hb b hb')).2.1

/-- Witness for C14: the three bytes `0F A2 00` are rendered as `"0F A2 00"`. -/
theorem bytes_text_witness :
    (toDisassembly 0 0 0 sampleInsn).bytes = "0F A2 00" ∧
    (toDisassembly 0 0 0 sampleInsn).bytes = specBytesText sampleInsn.bytes ∧
    (toDisassembly 0 0 0 sampleInsn).bytes.length = 3 * sampleInsn.size - 1 ∧
    parseBytesText (toDisassembly 0 0 0 sampleInsn).bytes = sampleInsn.bytes :=
  ⟨by decide, bytes_text 0 0 0 sampleInsn (by decide) (by decide) (by decide)⟩

/-! ## Termination and containment of the rows -/

theorem decodesWithin_of_nonempty (decoder : List Nat → Nat → List cs_insn)
    (h : ∀ buffer address, decoder buffer address ≠ [] →
      (∀ i ∈ decoder buffer address, 1 ≤ i.size) ∧
      totalSize (decoder buffer address) ≤ buffer.length) :
    DecodesWithin decoder := by
  intro buffer address
  by_cases h0 : decoder buffer address = []
  · rw [h0]
    simp [totalSize]
  · exact h buffer address h0

theorem step_breaks_or_advances (W : Nat) (env : Env) (s : LoopState)
    (hf : s.finished = false) (ha : s.address < env.size)
    (hsize : env.size + W ≤ 18446744073709551616)
    (hdec : DecodesWithin env.cs_disasm) :
    (step W env s).finished = true ∨ s.address < (step W env s).address := by
  by_cases hi : instructionsAt W env s.address = []
  · left
    rw [step_stall W env s hf ha hi]
  · right
    obtain ⟨hpos, hle⟩ := decodesWithin_at W env s.address hdec
    have hnext := nextAddress_eq W env s.address ha hsize hpos hle
    have hcount := length_le_totalSize _ hpos
    have hlen : 1 ≤ (instructionsAt W env s.address).length := List.length_pos.mpr hi
    rw [(step_running W env s hf ha hi).1, hnext]
    omega

theorem iterations_bounded (W : Nat) (env : Env)
    (hsize : env.size + W ≤ 18446744073709551616)
    (hdec : DecodesWithin env.cs_disasm) (n : Nat) :
    (run W env n).updates.length ≤ env.size ∧
    ((run W env n).finished = false →
      (run W env n).updates.length ≤ (run W env n).address) := by
  induction n with
  | zero => exact ⟨Nat.zero_le _, fun _ => Nat.zero_le _⟩
  | succ m ih =>
    obtain ⟨h1, h2⟩ := ih
    rw [run_succ]
    by_cases hf : (run W env m).finished = true
    · rw [step_of_finished W env _ hf]
      exact ⟨h1, fun h => by rw [hf] at h; cases h⟩
    · have hf' : (run W env m).finished = false := by simpa using hf
      have hle := h2 hf'
      by_cases ha : (run W env m).address < env.size
      · have hu := step_updates W env _ hf' ha
        have hl : (step W env (run W env m)).updates.length
            = (run W env m).updates.length + 1 := by
          rw [hu]; simp
        refine ⟨by omega, ?_⟩
        intro hrun
        rcases step_breaks_or_advances W env _ hf' ha hsize hdec with hb | hadv
        · rw [hb] at hrun
          cases hrun
        · omega
      · rw [step_exit W env _ hf' ha]
        exact ⟨h1, fun h => by cases h⟩

/-- C21: for every region of fewer than `2 ^ 64 - 2048` bytes and every decoder that,
whenever it returns instructions, returns instructions of at least one byte that cover at
most the chunk, the loop has terminated after `size + 1` evaluations of its head; the body
is entered at most `size` times; and every iteration either ends the loop or leaves
`address` strictly larger than it found it. -/
theorem loop_terminates (env : Env)
    (hsize : env.size + 2048 < 18446744073709551616)
    (hdec : ∀ buffer address, env.cs_disasm buffer address ≠ [] →
      (∀ i ∈ env.cs_disasm buffer address, 1 ≤ i.size) ∧
      totalSize (env.cs_disasm buffer address) ≤ buffer.length) :
    (run 2048 env (env.size + 1)).finished = true ∧
    (∀ n, (run 2048 env n).updates.length ≤ env.size) ∧
    (∀ n, (run 2048 env n).finished = false → (run 2048 env n).address < env.size →
      (run 2048 env (n + 1)).finished = true ∨
        (run 2048 env n).address < (run 2048 env (n + 1)).address) := by
  have hd := decodesWithin_of_nonempty _ hdec
  have hs : env.size + 2048 ≤ 18446744073709551616 := by omega
  refine ⟨?_, fun n => (iterations_bounded 2048 env hs hd n).1, ?_⟩
  · by_cases hf : (run 2048 env env.size).finished = true
    · rw [run_stable 2048 env env.size hf (env.size + 1) (by omega)]
      exact hf
    · have hf' : (run 2048 env env.size).finished = false := by simpa using hf
      have h1 := (updates_are_addresses 2048 env env.size).2.2 hf'
      have h2 := (iterations_bounded 2048 env hs hd env.size).2 hf'
      rw [run_succ, step_exit 2048 env _ hf' (by omega)]
  · intro n hf ha
    exact step_breaks_or_advances 2048 env _ hf ha hs hd

/-- Witness for C21: the region `{4096, 5000}` with the decoder that takes three bytes of
each chunk. -/
theorem loop_terminates_witness :
    (run 2048 partialEnv (partialEnv.size + 1)).finished = true ∧
    (∀ n, (run 2048 partialEnv n).updates.length ≤ partialEnv.size) ∧
    (∀ n, (run 2048 partialEnv n).finished = false →
      (run 2048 partialEnv n).address < partialEnv.size →
      (run 2048 partialEnv (n + 1)).finished = true ∨
        (run 2048 partialEnv n).address < (run 2048 partialEnv (n + 1)).address) :=
  loop_terminates partialEnv (by decide)
    (fun buffer address _ => decodesWithin_threeByteDecoder buffer address)

theorem rows_inside (W : Nat) (env : Env)
    (hregion : env.startAddress + env.size < 18446744073709551616)
    (hdec : DecodesWithin env.cs_disasm) (n : Nat) :
    ∀ d ∈ (run W env n).m_disassembly,
      env.startAddress ≤ d.offset ∧ d.offset + d.size ≤ env.startAddress + env.size := by
  refine run_invariant W env
    (fun s => ∀ d ∈ s.m_disassembly,
      env.startAddress ≤ d.offset ∧ d.offset + d.size ≤ env.startAddress + env.size)
    (by simp [initial]) ?_ n
  intro s hs
  refine step_induction W env
    (fun t => ∀ d ∈ t.m_disassembly,
      env.startAddress ≤ d.offset ∧ d.offset + d.size ≤ env.startAddress + env.size)
    s hs hs (fun _ => hs) ?_
  intro ha _ d hd
  rcases List.mem_append.mp hd with h | h
  · exact hs d h
  · obtain ⟨hpos, hle⟩ := decodesWithin_at W env s.address hdec
    have hb' : bufferSize W env s.address ≤ env.size - s.address := by
      unfold bufferSize; omega
    have hnew := ordered_of_tiles _ _ _ (tiles_chunk W env s.address ha hregion hpos hle)
    have := ordered_mem _ _ _ hnew d h
    omega

/-- C22: for every region that lies inside a source of less than `2 ^ 64` bytes and every
decoder whose instructions have at least one byte each and sum to at most the chunk length,
every row of the result satisfies `startAddress <= offset` and
`offset + size <= startAddress + size of the region`, so that the range handed to
`setSelection` for any row lies within the region; and consecutive rows satisfy
`offset[i] + size[i] <= offset[i+1]` in every state in which `address` cannot have wrapped
around: the region has at most `2 ^ 64 - 2048` bytes, or fewer than `2 ^ 53` rows are
held. -/
theorem rows_inside_region (env : Env)
    (hregion : env.startAddress + env.size < 18446744073709551616)
    (hdec : DecodesWithin env.cs_disasm) (n : Nat) :
    (∀ d ∈ (run 2048 env n).m_disassembly,
      env.startAddress ≤ d.offset ∧ d.offset + d.size ≤ env.startAddress + env.size) ∧
    (∀ i selection, setSelection (run 2048 env n).m_disassembly i = some selection →
      env.startAddress ≤ selection.1 ∧
      selection.1 + selection.2 ≤ env.startAddress + env.size) ∧
    (env.size + 2048 ≤ 18446744073709551616 ∨
        (run 2048 env n).m_disassembly.length < 9007199254740992 →
      (run 2048 env n).m_disassembly.Chain' (fun a b => a.offset + a.size ≤ b.offset)) := by
  have hin := rows_inside 2048 env hregion hdec n
  refine ⟨hin, ?_, ?_⟩
  · intro i selection hsel
    unfold setSelection at hsel
    obtain ⟨d, hd, rfl⟩ := Option.map_eq_some'.mp hsel
    exact hin d (List.getElem?_mem hd)
  · intro hfeasible
    have key : OrderedInv env (run 2048 env n) := by
      rcases hfeasible with hsize | hrows
      · exact ordered_invariant 2048 env hregion hsize hdec n
      · exact (ordered_feasible env hregion hdec n hrows).1
    obtain ⟨q, hq, _⟩ := key
    exact (ordered_pairwise _ _ _ hq).chain'

/-- Witness for C22: the region `{4096, 5000}` with the decoder that takes three bytes of
each chunk, after six evaluations of the loop head. -/
theorem rows_inside_region_witness :
    (∀ d ∈ (run 2048 partialEnv 6).m_disassembly,
      partialEnv.startAddress ≤ d.offset ∧
      d.offset + d.size ≤ partialEnv.startAddress + partialEnv.size) ∧
    (∀ i selection, setSelection (run 2048 partialEnv 6).m_disassembly i = some selection →
      partialEnv.startAddress ≤ selection.1 ∧
      selection.1 + selection.2 ≤ partialEnv.startAddress + partialEnv.size) ∧
    (partialEnv.size + 2048 ≤ 18446744073709551616 ∨
        (run 2048 partialEnv 6).m_disassembly.length < 9007199254740992 →
      (run 2048 partialEnv 6).m_disassembly.Chain'
        (fun a b => a.offset + a.size ≤ b.offset)) :=
  rows_inside_region partialEnv (by decide) decodesWithin_threeByteDecoder 6

end ViewDisassembler
